import Mathlib

/-!
# MA27 linear-solver interface (casadi/interfaces/hsl/ma27_interface.cpp)

A shallow embedding of `Ma27Interface::reset`, `Ma27Interface::factorize`,
`Ma27Interface::solve` and of the `Ma27Memory` constructor.

Modelling conventions.

* `double` is an arbitrary type `V` with a zero and decidable equality; the
  C++ test `A[el]!=0` is disequality with that zero.  Only copying and the
  comparison with zero are used by the interface.
* `int` values are mathematical integers.  Where the C++ converts a `double`
  to `int` (`int la_min = ceil(...)`) the conversion is only defined inside
  the range of a 32-bit `int`; outside it the model yields `Err.undefined`.
* `std::vector` is a list.  `resize` truncates or pads with zeros.  Where an
  `int` is compared with `size()` the `int` is converted to the unsigned size
  type, so a negative value exceeds every size and the following `resize`
  throws `std::length_error` (`Err.lengthError`).
* An access outside a buffer is undefined behaviour (`Err.undefined`).
* The three HSL routines `ma27ad_`, `ma27bd_`, `ma27cd_` are external; they
  are parameters of the model (`Kernel`).  A routine may overwrite the
  contents of every member array and member scalar it is handed by address,
  but it cannot change the size of a `std::vector`.  Local scalars (`N`,
  `nnz`, `LA`, `LIW`) are inputs.
* Every kernel call is recorded, with its arguments and what it returned, in
  the order the calls are made.
* The products `ceil(2.0 * k)`, `ceil(20.0 * k)`, `ceil(5.0 * k)` of a
  `double` constant with an `int` are exact, so they are computed on integers.
* Memory exhaustion (`std::bad_alloc`) is outside the model.  Plugin
  registration, `init`, `set_work` and `init_memory` touch no buffer the
  statements below are about and are not modelled; the control arrays they set
  are part of the memory and are passed to the routines unchanged.
-/

set_option linter.dupNamespace false

namespace casadi

/-- Ways in which a call of the interface can fail. -/
inductive Err where
  /-- The check `casadi_assert(A!=0)` failed. -/
  | assertion
  /-- The check `casadi_assert_message(iflag==0, ...)` after `ma27ad_` failed. -/
  | analysis (iflag ierror : Int)
  /-- The branch `casadi_error("ma2bd_ returns iflag = ...")` was taken. -/
  | numeric (iflag ierror : Int)
  /-- A `resize` beyond `max_size()`, `std::length_error`. -/
  | lengthError
  /-- Behaviour the C++ standard leaves undefined. -/
  | undefined
  deriving DecidableEq, Repr

/-- Largest value of a 32-bit `int`. -/
def INT_MAX : Int := 2147483647

/-- Smallest value of a 32-bit `int`. -/
def INT_MIN : Int := -2147483648

/-- Conversion of an integral `double` to `int`: defined only in range. -/
def doubleToInt (v : Int) : Except Err Int :=
  if INT_MIN ≤ v ∧ v ≤ INT_MAX then .ok v else .error .undefined

/-- Conversion of a vector size to `int` (`int LIW = m->iw.size()`), modulo 2^32. -/
def sizeToInt (n : Nat) : Int :=
  ((n : Int) + 2147483648) % 4294967296 - 2147483648

/-- The call `v.resize(n)`: keep the first `n` entries, pad with zeros. -/
def resize {α : Type} [Zero α] (xs : List α) (n : Nat) : List α :=
  xs.take n ++ List.replicate (n - xs.length) 0

/-- The statement `if (k > v.size()) v.resize(k)` for an `int` `k`. The
comparison is unsigned, so a negative `k` is larger than every size and the
`resize` throws. -/
def growTo {α : Type} [Zero α] (xs : List α) (k : Int) : Except Err (List α) :=
  if k < 0 then .error .lengthError
  else if k.toNat > xs.length then .ok (resize xs k.toNat)
  else .ok xs

/-- Read `xs[i]`; outside the buffer the behaviour is undefined. -/
def readAt {α : Type} (xs : List α) (i : Nat) : Except Err α :=
  match xs[i]? with
  | some v => .ok v
  | none => .error .undefined

/-- Write `xs[i] = v`; outside the buffer the behaviour is undefined. -/
def writeAt {α : Type} (xs : List α) (i : Nat) (v : α) : Except Err (List α) :=
  if i < xs.length then .ok (xs.set i v) else .error .undefined

/-- What a routine that was handed `old` by address can leave behind when it
wrote `new`: the size of the vector is that of `old`. -/
def overwrite {α : Type} (old new : List α) : List α :=
  new.take old.length ++ old.drop new.length

/-- Modelled from the spec: the sparsity pattern held by the base class
`LinsolMemory` (its declaration is not among the sources), a column-pointer
array and a row-index array over `ncol` columns, read through `ncol()`,
`colind()` and `row()`. -/
structure Sparsity where
  nrow : Nat
  ncol : Nat
  colind : List Nat
  row : List Nat
  deriving DecidableEq, Repr

/-- The memory object `Ma27Memory` with the part of `LinsolMemory` it uses. -/
structure Ma27Memory (V : Type) where
  sparsity : Sparsity
  icntl : List Int
  cntl : List V
  irn : List Int
  jcn : List Int
  iw : List Int
  iw1 : List Int
  ikeep : List Int
  nz : List V
  w : List V
  nnz : Int
  neig : Int
  rank : Int
  nsteps : Int
  maxfrt : Int

/-- The constructor `Ma27Memory::Ma27Memory()`. The base part and the control
arrays (set by `init_memory`) are parameters; the vectors start empty. -/
def Ma27Memory.Ma27Memory {V : Type} (base : Sparsity) (icntl : List Int)
    (cntl : List V) : Ma27Memory V :=
  { sparsity := base, icntl := icntl, cntl := cntl,
    irn := [], jcn := [], iw := [], iw1 := [], ikeep := [], nz := [], w := [],
    nnz := -1, neig := -1, rank := -1, nsteps := -1, maxfrt := -1 }

/-- Arguments of `ma27ad_` (the outputs `info` and `ops` apart). -/
structure Ma27adArgs (V : Type) where
  N : Int
  nnz : Int
  irn : List Int
  jcn : List Int
  iw : List Int
  LIW : Int
  ikeep : List Int
  iw1 : List Int
  nsteps : Int
  iflag : Int
  icntl : List Int
  cntl : List V

/-- What `ma27ad_` leaves in the arrays and scalars it was handed. -/
structure Ma27adRet (V : Type) where
  irn : List Int
  jcn : List Int
  iw : List Int
  ikeep : List Int
  iw1 : List Int
  nsteps : Int
  icntl : List Int
  cntl : List V
  info : Nat → Int

/-- Arguments of `ma27bd_`; `info` is the array as `ma27ad_` left it. -/
structure Ma27bdArgs (V : Type) where
  N : Int
  nnz : Int
  irn : List Int
  jcn : List Int
  nz : List V
  LA : Int
  iw : List Int
  LIW : Int
  ikeep : List Int
  nsteps : Int
  maxfrt : Int
  iw1 : List Int
  icntl : List Int
  cntl : List V
  info : Nat → Int

/-- What `ma27bd_` leaves in the arrays and scalars it was handed. -/
structure Ma27bdRet (V : Type) where
  irn : List Int
  jcn : List Int
  nz : List V
  iw : List Int
  ikeep : List Int
  nsteps : Int
  maxfrt : Int
  iw1 : List Int
  icntl : List Int
  cntl : List V
  info : Nat → Int

/-- Arguments of `ma27cd_`; `x` is the right-hand side of length `N` that the
pointer `x` designates. -/
structure Ma27cdArgs (V : Type) where
  N : Int
  nz : List V
  LA : Int
  iw : List Int
  LIW : Int
  w : List V
  maxfrt : Int
  x : List V
  iw1 : List Int
  nsteps : Int
  icntl : List Int
  cntl : List V

/-- What `ma27cd_` leaves in the arrays and scalars it was handed. -/
structure Ma27cdRet (V : Type) where
  nz : List V
  iw : List Int
  w : List V
  maxfrt : Int
  x : List V
  iw1 : List Int
  nsteps : Int
  icntl : List Int
  cntl : List V

/-- The external HSL routines. -/
structure Kernel (V : Type) where
  ma27ad_ : Ma27adArgs V → Ma27adRet V
  ma27bd_ : Ma27bdArgs V → Ma27bdRet V
  ma27cd_ : Ma27cdArgs V → Ma27cdRet V

/-- One recorded kernel call: the arguments and what the routine returned. -/
inductive KCall (V : Type) where
  | ma27ad (a : Ma27adArgs V) (r : Ma27adRet V)
  | ma27bd (a : Ma27bdArgs V) (r : Ma27bdRet V)
  | ma27cd (a : Ma27cdArgs V) (r : Ma27cdRet V)

/-- Whether a recorded call is a call of `ma27ad_`. -/
def KCall.isAd {V : Type} : KCall V → Bool
  | .ma27ad _ _ => true
  | _ => false

/-- Whether a recorded call is a call of `ma27bd_`. -/
def KCall.isBd {V : Type} : KCall V → Bool
  | .ma27bd _ _ => true
  | _ => false

/-- Whether a recorded call is a call of `ma27cd_`. -/
def KCall.isCd {V : Type} : KCall V → Bool
  | .ma27cd _ _ => true
  | _ => false

/-- The outcome of a call of the interface: the kernel calls it made, in
order, and either the value it completed with or the error it raised. -/
structure Run (V : Type) (α : Type) where
  calls : List (KCall V)
  result : Except Err α

/-- Modelled from the spec: `LinsolInternal::reset` of the base class (not
among the sources) installs the new sparsity pattern in the memory object. -/
def LinsolInternal.reset {V : Type} (m : Ma27Memory V) (sp : Sparsity) : Ma27Memory V :=
  { m with sparsity := sp }

/-- The function `Ma27Interface::reset`. -/
def Ma27Interface.reset {V : Type} [Zero V] (m : Ma27Memory V) (sp : Sparsity) :
    Except Err (Ma27Memory V) :=
  let m := LinsolInternal.reset m sp
  let N := m.sparsity.ncol
  match readAt m.sparsity.colind N with
  | .error e => .error e
  | .ok nnz =>
    -- the `int` expression 2*nnz+3*N+1 must not overflow
    if ((2 * nnz + 3 * N + 1 : Nat) : Int) ≤ INT_MAX then
      .ok { m with
            iw := resize m.iw (2 * (2 * nnz + 3 * N + 1)),
            nz := resize m.nz (2 * nnz),
            irn := resize m.irn nnz,
            jcn := resize m.jcn nnz,
            iw1 := resize m.iw1 (2 * N),
            ikeep := resize m.ikeep (3 * N) }
    else .error .undefined

/-- The buffers written by the extraction loop and its counter `nnz`. -/
structure Packed (V : Type) where
  nz : List V
  irn : List Int
  jcn : List Int
  nnz : Nat

/-- The body of the inner loop of `factorize` for the stored entry `el` of
column `cc`. -/
def extractEntry {V : Type} [Zero V] [DecidableEq V] (row : List Nat) (A : List V)
    (cc : Nat) (st : Packed V) (el : Nat) : Except Err (Packed V) :=
  match readAt row el with
  | .error e => .error e
  | .ok rr =>
    if rr > cc then .ok st
    else
      match readAt A el with
      | .error e => .error e
      | .ok a =>
        if a ≠ 0 then
          match writeAt st.nz st.nnz a with
          | .error e => .error e
          | .ok nz =>
            match writeAt st.irn st.nnz ((rr : Int) + 1) with
            | .error e => .error e
            | .ok irn =>
              match writeAt st.jcn st.nnz ((cc : Int) + 1) with
              | .error e => .error e
              | .ok jcn => .ok { nz := nz, irn := irn, jcn := jcn, nnz := st.nnz + 1 }
        else .ok st

/-- The inner loop `for (el=colind[cc]; el<colind[cc+1]; ++el)` over the
listed values of `el`. -/
def extractEls {V : Type} [Zero V] [DecidableEq V] (row : List Nat) (A : List V)
    (cc : Nat) : List Nat → Packed V → Except Err (Packed V)
  | [], st => .ok st
  | el :: els, st =>
    match extractEntry row A cc st el with
    | .error e => .error e
    | .ok st1 => extractEls row A cc els st1

/-- One pass of the outer loop: column `cc`. -/
def extractCol {V : Type} [Zero V] [DecidableEq V] (sp : Sparsity) (A : List V)
    (st : Packed V) (cc : Nat) : Except Err (Packed V) :=
  match readAt sp.colind cc with
  | .error e => .error e
  | .ok lo =>
    match readAt sp.colind (cc + 1) with
    | .error e => .error e
    | .ok hi => extractEls sp.row A cc (List.range' lo (hi - lo)) st

/-- The outer loop `for (cc=0; cc<ncol; ++cc)` over the listed columns. -/
def extractCols {V : Type} [Zero V] [DecidableEq V] (sp : Sparsity) (A : List V) :
    List Nat → Packed V → Except Err (Packed V)
  | [], st => .ok st
  | cc :: ccs, st =>
    match extractCol sp A st cc with
    | .error e => .error e
    | .ok st1 => extractCols sp A ccs st1

/-- The extraction step of `factorize` ("Get actual nonzeros"), started on the
buffers of `m` with `nnz = 0`. -/
def extract {V : Type} [Zero V] [DecidableEq V] (m : Ma27Memory V) (A : List V) :
    Except Err (Packed V) :=
  extractCols m.sparsity A (List.range m.sparsity.ncol)
    { nz := m.nz, irn := m.irn, jcn := m.jcn, nnz := 0 }

/-- The memory after the extraction step, `m->nnz = nnz` included. -/
def storePacked {V : Type} (m : Ma27Memory V) (p : Packed V) : Ma27Memory V :=
  { m with nz := p.nz, irn := p.irn, jcn := p.jcn, nnz := (p.nnz : Int) }

/-- The arguments `factorize` hands to `ma27ad_`. -/
def adArgs {V : Type} (m : Ma27Memory V) (nnz : Int) : Ma27adArgs V :=
  { N := (m.sparsity.ncol : Int), nnz := nnz, irn := m.irn, jcn := m.jcn, iw := m.iw,
    LIW := sizeToInt m.iw.length, ikeep := m.ikeep, iw1 := m.iw1, nsteps := m.nsteps,
    iflag := 0, icntl := m.icntl, cntl := m.cntl }

/-- The memory after `ma27ad_` returned `r`. -/
def storeAd {V : Type} (m : Ma27Memory V) (r : Ma27adRet V) : Ma27Memory V :=
  { m with
    irn := overwrite m.irn r.irn, jcn := overwrite m.jcn r.jcn,
    iw := overwrite m.iw r.iw, ikeep := overwrite m.ikeep r.ikeep,
    iw1 := overwrite m.iw1 r.iw1, nsteps := r.nsteps,
    icntl := overwrite m.icntl r.icntl, cntl := overwrite m.cntl r.cntl }

/-- The growth step of `factorize` ("Allocate more memory?") for the value
`nirnec = info[5]`. -/
def growStep {V : Type} [Zero V] (m : Ma27Memory V) (nirnec : Int) :
    Except Err (Ma27Memory V) :=
  match doubleToInt (20 * nirnec) with
  | .error e => .error e
  | .ok la_min =>
    match growTo m.nz la_min with
    | .error e => .error e
    | .ok nz =>
      match doubleToInt (5 * nirnec) with
      | .error e => .error e
      | .ok liw_min =>
        match growTo m.iw liw_min with
        | .error e => .error e
        | .ok iw => .ok { m with nz := nz, iw := iw }

/-- The arguments `factorize` hands to `ma27bd_`. -/
def bdArgs {V : Type} (m : Ma27Memory V) (nnz : Int) (info : Nat → Int) : Ma27bdArgs V :=
  { N := (m.sparsity.ncol : Int), nnz := nnz, irn := m.irn, jcn := m.jcn, nz := m.nz,
    LA := sizeToInt m.nz.length, iw := m.iw, LIW := sizeToInt m.iw.length,
    ikeep := m.ikeep, nsteps := m.nsteps, maxfrt := m.maxfrt, iw1 := m.iw1,
    icntl := m.icntl, cntl := m.cntl, info := info }

/-- The memory after `ma27bd_` returned `r`, `m->neig = info[14]` included. -/
def storeBd {V : Type} (m : Ma27Memory V) (r : Ma27bdRet V) : Ma27Memory V :=
  { m with
    irn := overwrite m.irn r.irn, jcn := overwrite m.jcn r.jcn,
    nz := overwrite m.nz r.nz, iw := overwrite m.iw r.iw,
    ikeep := overwrite m.ikeep r.ikeep, nsteps := r.nsteps, maxfrt := r.maxfrt,
    iw1 := overwrite m.iw1 r.iw1,
    icntl := overwrite m.icntl r.icntl, cntl := overwrite m.cntl r.cntl,
    neig := r.info 14 }

/-- The interpretation of the flag of `ma27bd_` and the final growth of `w`. -/
def finish {V : Type} [Zero V] (m : Ma27Memory V) (info : Nat → Int) :
    Except Err (Ma27Memory V) :=
  let iflag := info 0
  let ierror := info 1
  let ranked : Except Err (Ma27Memory V) :=
    if iflag = 3 then .ok { m with rank := info 1 }
    else if iflag = -5 then .ok { m with rank := -1 }
    else if iflag ≠ 0 then .error (.numeric iflag ierror)
    else .ok { m with rank := (m.sparsity.ncol : Int) }
  match ranked with
  | .error e => .error e
  | .ok m1 =>
    match growTo m1.w m1.maxfrt with
    | .error e => .error e
    | .ok w => .ok { m1 with w := w }

/-- The function `Ma27Interface::factorize`; `A = none` is the null pointer. -/
def Ma27Interface.factorize {V : Type} [Zero V] [DecidableEq V] (K : Kernel V)
    (m : Ma27Memory V) (A : Option (List V)) : Run V (Ma27Memory V) :=
  match A with
  | none => { calls := [], result := .error .assertion }
  | some a =>
    match extract m a with
    | .error e => { calls := [], result := .error e }
    | .ok p =>
      let m1 := storePacked m p
      let aa := adArgs m1 (p.nnz : Int)
      let ar := K.ma27ad_ aa
      let m2 := storeAd m1 ar
      if ar.info 0 ≠ 0 then
        { calls := [KCall.ma27ad aa ar],
          result := .error (.analysis (ar.info 0) (ar.info 1)) }
      else
        match growStep m2 (ar.info 5) with
        | .error e => { calls := [KCall.ma27ad aa ar], result := .error e }
        | .ok m3 =>
          let ba := bdArgs m3 (p.nnz : Int) ar.info
          let br := K.ma27bd_ ba
          { calls := [KCall.ma27ad aa ar, KCall.ma27bd ba br],
            result := finish (storeBd m3 br) br.info }

/-- The arguments `solve` hands to `ma27cd_` when `x` points at `seg`. -/
def cdArgs {V : Type} (m : Ma27Memory V) (N LA LIW : Int) (seg : List V) : Ma27cdArgs V :=
  { N := N, nz := m.nz, LA := LA, iw := m.iw, LIW := LIW, w := m.w, maxfrt := m.maxfrt,
    x := seg, iw1 := m.iw1, nsteps := m.nsteps, icntl := m.icntl, cntl := m.cntl }

/-- The memory after `ma27cd_` returned `r`. -/
def storeCd {V : Type} (m : Ma27Memory V) (r : Ma27cdRet V) : Ma27Memory V :=
  { m with
    nz := overwrite m.nz r.nz, iw := overwrite m.iw r.iw, w := overwrite m.w r.w,
    maxfrt := r.maxfrt, iw1 := overwrite m.iw1 r.iw1, nsteps := r.nsteps,
    icntl := overwrite m.icntl r.icntl, cntl := overwrite m.cntl r.cntl }

/-- The segment of `n` entries of `x` that starts at offset `off`. -/
def segment {V : Type} (x : List V) (off n : Nat) : List V :=
  (x.drop off).take n

/-- The buffer `x` after the `n` entries from offset `off` were handed to a
routine that wrote `new`. -/
def putSegment {V : Type} (x : List V) (off n : Nat) (new : List V) : List V :=
  x.take off ++ overwrite (segment x off n) new ++ x.drop (off + n)

/-- The state of the loop of `solve`: calls made, memory, buffer. -/
structure SolveState (V : Type) where
  calls : List (KCall V)
  mem : Ma27Memory V
  x : List V

/-- The loop `for (k=0; k<nrhs; ++k) { ma27cd_(...); x += N; }` with `count`
passes left and the pointer `x` at offset `off` of the buffer. -/
def solveLoop {V : Type} (K : Kernel V) (N : Nat) (LA LIW : Int) :
    Nat → Nat → Ma27Memory V → List V → SolveState V
  | 0, _, m, x => { calls := [], mem := m, x := x }
  | count + 1, off, m, x =>
    let a := cdArgs m (N : Int) LA LIW (segment x off N)
    let r := K.ma27cd_ a
    let rest := solveLoop K N LA LIW count (off + N) (storeCd m r) (putSegment x off N r.x)
    { rest with calls := KCall.ma27cd a r :: rest.calls }

/-- The function `Ma27Interface::solve`; it completes with the memory and the
buffer `x`. The flag `tr` is not used by the code. -/
def Ma27Interface.solve {V : Type} (K : Kernel V) (m : Ma27Memory V) (x : List V)
    (nrhs : Int) (_tr : Bool) : Run V (Ma27Memory V × List V) :=
  let N := m.sparsity.ncol
  let LA := sizeToInt m.nz.length
  let LIW := sizeToInt m.iw.length
  let s := solveLoop K N LA LIW nrhs.toNat 0 m x
  { calls := s.calls, result := .ok (s.mem, s.x) }

/-! ## Reference definitions for the extraction step -/

/-- Number of stored entries of a pattern, `colind()[ncol()]`. -/
def Sparsity.nnz (sp : Sparsity) : Nat :=
  sp.colind.getD sp.ncol 0

/-- The stored entries of column `cc` in storage order, as (row, column,
value). -/
def colEntries {V : Type} [Zero V] (sp : Sparsity) (A : List V) (cc : Nat) :
    List (Nat × Nat × V) :=
  (List.range' (sp.colind.getD cc 0) (sp.colind.getD (cc + 1) 0 - sp.colind.getD cc 0)).map
    (fun el => (sp.row.getD el 0, cc, A.getD el 0))

/-- The stored entries of the matrix in storage (column-major) order. -/
def storedEntries {V : Type} [Zero V] (sp : Sparsity) (A : List V) : List (Nat × Nat × V) :=
  (List.range sp.ncol).flatMap (colEntries sp A)

/-- An entry lies in the upper triangle (row <= column) and its value is not 0. -/
def upperNonzero {V : Type} [Zero V] [DecidableEq V] (e : Nat × Nat × V) : Bool :=
  decide (e.1 ≤ e.2.1) && decide (e.2.2 ≠ 0)

/-- The 1-based triple (row+1, column+1, value) handed to the kernel. -/
def oneBased {V : Type} (e : Nat × Nat × V) : Int × Int × V :=
  ((e.1 : Int) + 1, (e.2.1 : Int) + 1, e.2.2)

/-- The triples the specification asks for: the stored entries of the upper
triangle whose value is not 0, 1-based, in storage order. -/
def upperTriples {V : Type} [Zero V] [DecidableEq V] (sp : Sparsity) (A : List V) :
    List (Int × Int × V) :=
  ((storedEntries sp A).filter upperNonzero).map oneBased

/-- The triples `(irn[k], jcn[k], nz[k])` for `k = 0..nnz-1`. -/
def Packed.triples {V : Type} (p : Packed V) : List (Int × Int × V) :=
  List.zip (p.irn.take p.nnz) (List.zip (p.jcn.take p.nnz) (p.nz.take p.nnz))

/-- A valid column-compressed pattern (one column pointer per column and one
past the end, non-decreasing, every stored entry with a row index and a
value) in a memory whose packed buffers can hold every stored entry, as they
do after `reset`. -/
structure Fits {V : Type} (m : Ma27Memory V) (A : List V) : Prop where
  colind_length : m.sparsity.colind.length = m.sparsity.ncol + 1
  colind_mono : ∀ cc, cc < m.sparsity.ncol →
    m.sparsity.colind.getD cc 0 ≤ m.sparsity.colind.getD (cc + 1) 0
  row_length : m.sparsity.nnz ≤ m.sparsity.row.length
  values_length : m.sparsity.nnz ≤ A.length
  irn_length : m.sparsity.nnz ≤ m.irn.length
  jcn_length : m.sparsity.nnz ≤ m.jcn.length
  nz_length : m.sparsity.nnz ≤ m.nz.length

/-! ## Contracts of the external routines -/

/-- The factor data `ma27cd_` is handed: everything but the right-hand side
and the scratch arrays `w` and `iw1`. -/
structure FactorData (V : Type) where
  N : Int
  nz : List V
  LA : Int
  iw : List Int
  LIW : Int
  maxfrt : Int
  nsteps : Int
  icntl : List Int
  cntl : List V

/-- The factor data among the arguments of a call of `ma27cd_`. -/
def Ma27cdArgs.factor {V : Type} (a : Ma27cdArgs V) : FactorData V :=
  { N := a.N, nz := a.nz, LA := a.LA, iw := a.iw, LIW := a.LIW, maxfrt := a.maxfrt,
    nsteps := a.nsteps, icntl := a.icntl, cntl := a.cntl }

/-- The factor data `solve` hands to `ma27cd_` from the memory `m`. -/
def factorOf {V : Type} (m : Ma27Memory V) : FactorData V :=
  { N := (m.sparsity.ncol : Int), nz := m.nz, LA := sizeToInt m.nz.length, iw := m.iw,
    LIW := sizeToInt m.iw.length, maxfrt := m.maxfrt, nsteps := m.nsteps,
    icntl := m.icntl, cntl := m.cntl }

/-- The documented behaviour of `ma27cd_`: it does not alter the factor, and
the solution it returns does not depend on what the scratch arrays `w` and
`iw1` held. -/
structure Kernel.SolvesInPlace {V : Type} (K : Kernel V) : Prop where
  keeps : ∀ a, (K.ma27cd_ a).nz = a.nz ∧ (K.ma27cd_ a).iw = a.iw ∧
    (K.ma27cd_ a).maxfrt = a.maxfrt ∧ (K.ma27cd_ a).nsteps = a.nsteps ∧
    (K.ma27cd_ a).icntl = a.icntl ∧ (K.ma27cd_ a).cntl = a.cntl
  scratch : ∀ a b, a.factor = b.factor → a.x = b.x → (K.ma27cd_ a).x = (K.ma27cd_ b).x

/-! ## Sequences of calls on one context -/

/-- A call of the interface that changes the memory. -/
inductive Op (V : Type) where
  | reset (sp : Sparsity)
  | factorize (A : Option (List V))

/-- One call on the memory `m`. -/
def Op.step {V : Type} [Zero V] [DecidableEq V] (K : Kernel V) (m : Ma27Memory V) :
    Op V → Except Err (Ma27Memory V)
  | .reset sp => Ma27Interface.reset m sp
  | .factorize A => (Ma27Interface.factorize K m A).result

/-- The memories after each call of a sequence, while every call completes. -/
def runOps {V : Type} [Zero V] [DecidableEq V] (K : Kernel V) :
    Ma27Memory V → List (Op V) → Except Err (List (Ma27Memory V))
  | _, [] => .ok []
  | m, op :: ops =>
    match op.step K m with
    | .error e => .error e
    | .ok m1 =>
      match runOps K m1 ops with
      | .error e => .error e
      | .ok ms => .ok (m1 :: ms)

/-! ## Scripted kernels and sample inputs -/

/-- A scripted kernel over integer values. `ma27ad_` reports the flag `aflag`
and the sizes `R = info[4]`, `I = info[5]`; `ma27bd_` reports the flag `bflag`,
`info[1] = berr`, `info[14] = neig` and the front size `maxfrt`; `ma27cd_`
doubles the right-hand side and scribbles on its scratch arrays. -/
def scripted (aflag R I bflag berr neig maxfrt : Int) : Kernel Int :=
  { ma27ad_ := fun a =>
      { irn := a.irn, jcn := a.jcn, iw := a.iw, ikeep := a.ikeep, iw1 := a.iw1,
        nsteps := 1, icntl := a.icntl, cntl := a.cntl,
        info := fun k => if k = 0 then aflag else if k = 4 then R
          else if k = 5 then I else 0 },
    ma27bd_ := fun a =>
      { irn := a.irn, jcn := a.jcn, nz := a.nz, iw := a.iw, ikeep := a.ikeep,
        nsteps := a.nsteps, maxfrt := maxfrt, iw1 := a.iw1, icntl := a.icntl,
        cntl := a.cntl,
        info := fun k => if k = 0 then bflag else if k = 1 then berr
          else if k = 14 then neig else a.info k },
    ma27cd_ := fun a =>
      { nz := a.nz, iw := a.iw, w := a.w.map (fun _ => 1), maxfrt := a.maxfrt,
        x := a.x.map (fun v => 2 * v), iw1 := a.iw1.map (fun _ => 1),
        nsteps := a.nsteps, icntl := a.icntl, cntl := a.cntl } }

/-- The pattern of the 2-by-2 matrix with stored entries (0,0), (0,1), (1,1). -/
def sp2 : Sparsity :=
  { nrow := 2, ncol := 2, colind := [0, 1, 3], row := [0, 0, 1] }

/-- The pattern of a 1-by-1 matrix with its one entry stored. -/
def sp1 : Sparsity :=
  { nrow := 1, ncol := 1, colind := [0, 1], row := [0] }

/-- A freshly constructed context over integer values. -/
def fresh (sp : Sparsity) : Ma27Memory Int :=
  Ma27Memory.Ma27Memory sp [0, 0] [0]

/-- The context after `reset` with the pattern `sp1`. -/
def mem1 : Ma27Memory Int :=
  { sparsity := sp1, icntl := [0, 0], cntl := [0],
    irn := [0], jcn := [0], iw := List.replicate 12 0, iw1 := [0, 0], ikeep := [0, 0, 0],
    nz := [0, 0], w := [], nnz := -1, neig := -1, rank := -1, nsteps := -1, maxfrt := -1 }

/-- The context after `reset` with the pattern `sp2`. -/
def mem2 : Ma27Memory Int :=
  { sparsity := sp2, icntl := [0, 0], cntl := [0],
    irn := [0, 0, 0], jcn := [0, 0, 0], iw := List.replicate 26 0, iw1 := [0, 0, 0, 0],
    ikeep := [0, 0, 0, 0, 0, 0],
    nz := [0, 0, 0, 0, 0, 0], w := [], nnz := -1, neig := -1, rank := -1, nsteps := -1,
    maxfrt := -1 }

/-- The first `nnz` entries of the packed buffers hold the triples `ts`. -/
structure Packed.Holds {V : Type} (p : Packed V) (ts : List (Int × Int × V)) : Prop where
  nnz_eq : p.nnz = ts.length
  irn_eq : p.irn.take p.nnz = ts.map (fun t => t.1)
  jcn_eq : p.jcn.take p.nnz = ts.map (fun t => t.2.1)
  nz_eq : p.nz.take p.nnz = ts.map (fun t => t.2.2)

/-- The buffers of `q` have the sizes of the buffers of `p`. -/
def Packed.SameSizes {V : Type} (p q : Packed V) : Prop :=
  q.irn.length = p.irn.length ∧ q.jcn.length = p.jcn.length ∧ q.nz.length = p.nz.length

/-- The arguments of the call of `ma27ad_` in `factorize`, when the
extraction step produced `p`. -/
def adCallArgs {V : Type} (m : Ma27Memory V) (p : Packed V) : Ma27adArgs V :=
  adArgs (storePacked m p) (p.nnz : Int)

/-- The memory of `factorize` right after `ma27ad_` returned. -/
def analysed {V : Type} (K : Kernel V) (m : Ma27Memory V) (p : Packed V) : Ma27Memory V :=
  storeAd (storePacked m p) (K.ma27ad_ (adCallArgs m p))

/-- The arguments of the call of `ma27bd_` in `factorize`, when the growth
step left the memory `m3`. -/
def bdCallArgs {V : Type} (K : Kernel V) (m : Ma27Memory V) (p : Packed V)
    (m3 : Ma27Memory V) : Ma27bdArgs V :=
  bdArgs m3 (p.nnz : Int) (K.ma27ad_ (adCallArgs m p)).info

/-- The rank `factorize` stores for the flag and the entry `info[1]` that
`ma27bd_` reports, on the three branches that do not raise an error. -/
def rankOf (n : Nat) (info : Nat → Int) : Int :=
  if info 0 = 3 then info 1 else if info 0 = -5 then -1 else (n : Int)

/-- A scripted kernel whose analysis is clean and recommends `I = 1`, and
whose numeric factorization reports rank deficiency: flag 3, `info[1] = 1`,
two negative eigenvalues, front size 1. -/
def kernel3 : Kernel Int :=
  scripted 0 1000 1 3 1 2 1

/-- The packed buffers after extraction from `mem2` with values `[2, 7, 5]`. -/
def packed2 : Packed Int :=
  { nz := [2, 7, 5, 0, 0, 0], irn := [1, 1, 2], jcn := [1, 2, 2], nnz := 3 }

/-- The memory of `factorize kernel3 mem2 [2, 7, 5]` after the growth step. -/
def grown2 : Ma27Memory Int :=
  { analysed kernel3 mem2 packed2 with nz := [2, 7, 5] ++ List.replicate 17 0 }

/-- The arguments of the numeric call of `factorize kernel3 mem2 [2, 7, 5]`. -/
def bdArgs2 : Ma27bdArgs Int :=
  bdCallArgs kernel3 mem2 packed2 grown2

/-- A scripted kernel whose analysis is clean and whose numeric
factorization reports the fatal flag -3 with `info[1] = 7`. -/
def kernelFatal : Kernel Int :=
  scripted 0 1000 1 (-3) 7 0 1

/-- The context `mem2` after `factorize kernel3 mem2 [2, 7, 5]` completed. -/
def factored2 : Ma27Memory Int :=
  match (Ma27Interface.factorize kernel3 mem2 (some [2, 7, 5])).result with
  | .ok m => m
  | .error _ => mem2

/-- A scripted kernel whose analysis and numeric factorization are clean. -/
def kernelOk : Kernel Int :=
  scripted 0 6 1 0 0 0 1

/-- The context `mem2` after `factorize kernelOk mem2 [2, 7, 5]` completed. -/
def factoredOk : Ma27Memory Int :=
  match (Ma27Interface.factorize kernelOk mem2 (some [2, 7, 5])).result with
  | .ok m => m
  | .error _ => mem2

/-- A scripted kernel whose analysis is clean and reports the required
real-array size `R = info[4] = 30` and integer-array size `I = info[5] = 1`. -/
def kernelR30 : Kernel Int :=
  scripted 0 30 1 0 0 0 1

/-- A scripted kernel whose analysis recommends `I = 3`. -/
def kernelI3 : Kernel Int :=
  scripted 0 6 3 0 0 0 1

/-- Size of the integer workspace `iw` right after `reset` with pattern `sp`. -/
def iwAfterReset (sp : Sparsity) : Nat :=
  2 * (2 * sp.nnz + 3 * sp.ncol + 1)

/-- Size of the real workspace `nz` right after `reset` with pattern `sp`. -/
def nzAfterReset (sp : Sparsity) : Nat :=
  2 * sp.nnz

/-- What one completed call does to the sizes of the workspaces: `w` is not
smaller afterwards; `factorize` leaves neither `iw` nor `nz` smaller; `reset`
leaves `w` as it was and sets `iw` and `nz` to the sizes its pattern gives. -/
def Op.SizesAfter {V : Type} (op : Op V) (before after : Ma27Memory V) : Prop :=
  before.w.length ≤ after.w.length ∧
  match op with
  | .factorize _ =>
    before.iw.length ≤ after.iw.length ∧ before.nz.length ≤ after.nz.length
  | .reset sp =>
    after.w = before.w ∧ after.iw.length = iwAfterReset sp ∧
      after.nz.length = nzAfterReset sp

/-- The calls of a sequence, each with the memory before and after it. -/
def steps {V : Type} (m0 : Ma27Memory V) (ops : List (Op V)) (ms : List (Ma27Memory V)) :
    List (Ma27Memory V × Op V × Ma27Memory V) :=
  List.zip (m0 :: ms) (List.zip ops ms)

/-- A sequence on growing (here equal) patterns: reset, factorize, reset. -/
def sampleOps : List (Op Int) :=
  [Op.reset sp1, Op.factorize (some [2]), Op.reset sp1]

/-- The memories after each call of `sampleOps` with the kernel `kernelI3`,
started on a freshly constructed context. -/
def sampleRun : List (Ma27Memory Int) :=
  match runOps kernelI3 (fresh sp1) sampleOps with
  | .ok ms => ms
  | .error _ => []

/-- A scripted kernel whose analysis is clean and recommends the integer-array
size `I = info[5] = 200000000`, whose 20-fold does not fit an `int`. -/
def kernelBig : Kernel Int :=
  scripted 0 6 200000000 0 0 0 1

/-- The packed buffers after extraction from `mem1` with values `[2]`. -/
def packed1 : Packed Int :=
  { nz := [2, 0], irn := [1], jcn := [1], nnz := 1 }

/-! ## Theorems -/

theorem readAt_of_lt {α : Type} (xs : List α) (i : Nat) (d : α) (h : i < xs.length) :
    readAt xs i = .ok (xs.getD i d) := by
  simp [readAt, List.getElem?_eq_getElem h]

theorem writeAt_of_lt {α : Type} (xs : List α) (i : Nat) (v : α) (h : i < xs.length) :
    writeAt xs i v = .ok (xs.set i v) := by
  simp [writeAt, h]

theorem take_succ_set {α : Type} (xs : List α) (n : Nat) (v : α) (h : n < xs.length) :
    (xs.set n v).take (n + 1) = xs.take n ++ [v] := by
  rw [List.take_succ, List.getElem?_set_self h]
  congr 1
  apply List.ext_getElem?
  intro i
  rw [List.getElem?_take, List.getElem?_take]
  split
  · rw [List.getElem?_set_ne (by omega)]
  · rfl

theorem Packed.Holds.triples_eq {V : Type} {p : Packed V} {ts : List (Int × Int × V)}
    (h : p.Holds ts) : p.triples = ts := by
  unfold Packed.triples
  rw [h.irn_eq, h.jcn_eq, h.nz_eq]
  clear h
  induction ts with
  | nil => rfl
  | cons t ts ih => simp [ih]

theorem extractEntry_spec {V : Type} [Zero V] [DecidableEq V] (row : List Nat) (A : List V)
    (cc : Nat) (st : Packed V) (el : Nat) (ts : List (Int × Int × V))
    (hinv : st.Holds ts) (hel : el < row.length) (hA : el < A.length)
    (hirn : st.nnz < st.irn.length) (hjcn : st.nnz < st.jcn.length)
    (hnz : st.nnz < st.nz.length) :
    ∃ st1, extractEntry row A cc st el = .ok st1 ∧
      st1.Holds (ts ++ ([(row.getD el 0, cc, A.getD el 0)].filter upperNonzero).map oneBased) ∧
      st.SameSizes st1 := by
  unfold extractEntry
  rw [readAt_of_lt row el 0 hel, readAt_of_lt A el 0 hA]
  generalize row.getD el 0 = rr
  generalize A.getD el 0 = a
  dsimp only
  by_cases hup : rr > cc
  · refine ⟨st, by simp [hup], ?_, rfl, rfl, rfl⟩
    have : upperNonzero (rr, cc, a) = false := by
      simp only [upperNonzero, Bool.and_eq_false_imp, decide_eq_true_eq]
      intro h; omega
    simpa [List.filter, this] using hinv
  · by_cases hz : a = 0
    · refine ⟨st, by simp [hup, hz], ?_, rfl, rfl, rfl⟩
      have : upperNonzero (rr, cc, a) = false := by
        simp [upperNonzero, hz]
      simpa [List.filter, this] using hinv
    · have hk : upperNonzero (rr, cc, a) = true := by
        simp only [upperNonzero, Bool.and_eq_true, decide_eq_true_eq]
        exact ⟨by omega, hz⟩
      rw [writeAt_of_lt _ _ _ hnz, writeAt_of_lt _ _ _ hirn, writeAt_of_lt _ _ _ hjcn]
      refine ⟨{ nz := st.nz.set st.nnz a, irn := st.irn.set st.nnz ((rr : Int) + 1),
                jcn := st.jcn.set st.nnz ((cc : Int) + 1), nnz := st.nnz + 1 },
        by simp [hup, hz], ?_, by simp, by simp, by simp⟩
      constructor
      · simp [List.filter, hk, hinv.nnz_eq]
      · simp only [List.filter, hk, List.map, List.map_append]
        rw [take_succ_set _ _ _ hirn, hinv.irn_eq]; rfl
      · simp only [List.filter, hk, List.map, List.map_append]
        rw [take_succ_set _ _ _ hjcn, hinv.jcn_eq]; rfl
      · simp only [List.filter, hk, List.map, List.map_append]
        rw [take_succ_set _ _ _ hnz, hinv.nz_eq]; rfl

theorem Packed.Holds.nnz_append_le {V : Type} {p q : Packed V} {ts us : List (Int × Int × V)}
    (hp : p.Holds ts) (hq : q.Holds (ts ++ us)) : q.nnz = p.nnz + us.length := by
  rw [hq.nnz_eq, hp.nnz_eq, List.length_append]

theorem extractEls_spec {V : Type} [Zero V] [DecidableEq V] (row : List Nat) (A : List V)
    (cc : Nat) (els : List Nat) :
    ∀ (st : Packed V) (ts : List (Int × Int × V)), st.Holds ts →
      (∀ el, el ∈ els → el < row.length ∧ el < A.length) →
      st.nnz + els.length ≤ st.irn.length → st.nnz + els.length ≤ st.jcn.length →
      st.nnz + els.length ≤ st.nz.length →
      ∃ st1, extractEls row A cc els st = .ok st1 ∧
        st1.Holds (ts ++ ((els.map (fun el => (row.getD el 0, cc, A.getD el 0))).filter
          upperNonzero).map oneBased) ∧
        st.SameSizes st1 ∧ st1.nnz ≤ st.nnz + els.length := by
  induction els with
  | nil =>
    intro st ts hinv _ _ _ _
    exact ⟨st, rfl, by simpa using hinv, ⟨rfl, rfl, rfl⟩, by simp⟩
  | cons el els ih =>
    intro st ts hinv hb hirn hjcn hnz
    simp only [List.length_cons] at hirn hjcn hnz
    have hel := hb el (List.mem_cons_self _ _)
    obtain ⟨st1, h1, hinv1, hs1⟩ := extractEntry_spec row A cc st el ts hinv hel.1 hel.2
      (by omega) (by omega) (by omega)
    have hn1 := hinv.nnz_append_le hinv1
    have hle : (List.map oneBased (List.filter upperNonzero
        [(row.getD el 0, cc, A.getD el 0)])).length ≤ 1 := by
      rw [List.length_map]
      exact (List.length_filter_le _ _).trans (by simp)
    obtain ⟨e1, e2, e3⟩ := hs1
    obtain ⟨st2, h2, hinv2, hs2, hn2⟩ := ih st1 _ hinv1
      (fun e he => hb e (List.mem_cons_of_mem _ he)) (by omega) (by omega) (by omega)
    refine ⟨st2, ?_, ?_, ?_, by simp only [List.length_cons]; omega⟩
    · simp only [extractEls, h1, h2]
    · have hsplit : (el :: els).map (fun el => (row.getD el 0, cc, A.getD el 0)) =
          [(row.getD el 0, cc, A.getD el 0)] ++
            els.map (fun el => (row.getD el 0, cc, A.getD el 0)) := rfl
      rw [hsplit, List.filter_append, List.map_append, ← List.append_assoc]
      exact hinv2
    · obtain ⟨f1, f2, f3⟩ := hs2
      exact ⟨by omega, by omega, by omega⟩

theorem colind_le_nnz (sp : Sparsity)
    (hmono : ∀ cc, cc < sp.ncol → sp.colind.getD cc 0 ≤ sp.colind.getD (cc + 1) 0) :
    ∀ d c, c + d = sp.ncol → sp.colind.getD c 0 ≤ sp.nnz := by
  intro d
  induction d with
  | zero =>
    intro c hc
    have : c = sp.ncol := by omega
    subst this
    exact Nat.le_refl _
  | succ d ih =>
    intro c hc
    exact (hmono c (by omega)).trans (ih (c + 1) (by omega))

theorem extractCol_spec {V : Type} [Zero V] [DecidableEq V] (sp : Sparsity) (A : List V)
    (hlen : sp.colind.length = sp.ncol + 1)
    (hmono : ∀ cc, cc < sp.ncol → sp.colind.getD cc 0 ≤ sp.colind.getD (cc + 1) 0)
    (hrow : sp.nnz ≤ sp.row.length) (hA : sp.nnz ≤ A.length)
    (cc : Nat) (hcc : cc < sp.ncol) (st : Packed V) (ts : List (Int × Int × V))
    (hinv : st.Holds ts)
    (hirn : st.nnz + (sp.nnz - sp.colind.getD cc 0) ≤ st.irn.length)
    (hjcn : st.nnz + (sp.nnz - sp.colind.getD cc 0) ≤ st.jcn.length)
    (hnz : st.nnz + (sp.nnz - sp.colind.getD cc 0) ≤ st.nz.length) :
    ∃ st1, extractCol sp A st cc = .ok st1 ∧
      st1.Holds (ts ++ ((colEntries sp A cc).filter upperNonzero).map oneBased) ∧
      st.SameSizes st1 ∧
      st1.nnz + (sp.nnz - sp.colind.getD (cc + 1) 0) ≤ st.nnz + (sp.nnz - sp.colind.getD cc 0) := by
  have hlo := hmono cc hcc
  have hhi := colind_le_nnz sp hmono (sp.ncol - (cc + 1)) (cc + 1) (by omega)
  obtain ⟨st1, h1, hinv1, hs1, hn1⟩ := extractEls_spec sp.row A cc
    (List.range' (sp.colind.getD cc 0) (sp.colind.getD (cc + 1) 0 - sp.colind.getD cc 0))
    st ts hinv
    (by
      intro el hel
      rw [List.mem_range'_1] at hel
      constructor <;> omega)
    (by rw [List.length_range']; omega) (by rw [List.length_range']; omega)
    (by rw [List.length_range']; omega)
  rw [List.length_range'] at hn1
  refine ⟨st1, ?_, hinv1, hs1, by omega⟩
  unfold extractCol
  rw [readAt_of_lt sp.colind cc 0 (by omega), readAt_of_lt sp.colind (cc + 1) 0 (by omega)]
  exact h1

theorem extractCols_spec {V : Type} [Zero V] [DecidableEq V] (sp : Sparsity) (A : List V)
    (hlen : sp.colind.length = sp.ncol + 1)
    (hmono : ∀ cc, cc < sp.ncol → sp.colind.getD cc 0 ≤ sp.colind.getD (cc + 1) 0)
    (hrow : sp.nnz ≤ sp.row.length) (hA : sp.nnz ≤ A.length) :
    ∀ (k c : Nat) (st : Packed V) (ts : List (Int × Int × V)), c + k = sp.ncol →
      st.Holds ts →
      st.nnz + (sp.nnz - sp.colind.getD c 0) ≤ st.irn.length →
      st.nnz + (sp.nnz - sp.colind.getD c 0) ≤ st.jcn.length →
      st.nnz + (sp.nnz - sp.colind.getD c 0) ≤ st.nz.length →
      ∃ st1, extractCols sp A (List.range' c k) st = .ok st1 ∧
        st1.Holds (ts ++ (((List.range' c k).flatMap (colEntries sp A)).filter
          upperNonzero).map oneBased) ∧
        st.SameSizes st1 := by
  intro k
  induction k with
  | zero =>
    intro c st ts _ hinv _ _ _
    exact ⟨st, rfl, by simpa using hinv, rfl, rfl, rfl⟩
  | succ k ih =>
    intro c st ts hck hinv hirn hjcn hnz
    obtain ⟨st1, h1, hinv1, hs1, hn1⟩ := extractCol_spec sp A hlen hmono hrow hA c
      (by omega) st ts hinv hirn hjcn hnz
    obtain ⟨e1, e2, e3⟩ := hs1
    obtain ⟨st2, h2, hinv2, hs2⟩ := ih (c + 1) st1 _ (by omega) hinv1
      (by omega) (by omega) (by omega)
    refine ⟨st2, ?_, ?_, ?_⟩
    · rw [List.range'_succ]
      simp only [extractCols, h1, h2]
    · rw [List.range'_succ, List.flatMap_cons, List.filter_append, List.map_append,
        ← List.append_assoc]
      exact hinv2
    · obtain ⟨f1, f2, f3⟩ := hs2
      exact ⟨by omega, by omega, by omega⟩

/-- The extraction step on a valid pattern: it completes, the packed buffers
hold the reference triples, and no buffer changes size. -/
theorem extract_spec {V : Type} [Zero V] [DecidableEq V] (m : Ma27Memory V) (A : List V)
    (h : Fits m A) :
    ∃ p, extract m A = .ok p ∧ p.Holds (upperTriples m.sparsity A) ∧
      p.irn.length = m.irn.length ∧ p.jcn.length = m.jcn.length ∧
      p.nz.length = m.nz.length := by
  have h0 : (⟨m.nz, m.irn, m.jcn, 0⟩ : Packed V).Holds [] := ⟨rfl, rfl, rfl, rfl⟩
  obtain ⟨p, hp, hinv, hs⟩ := extractCols_spec m.sparsity A h.colind_length h.colind_mono
    h.row_length h.values_length m.sparsity.ncol 0 _ [] (by omega) h0
    (by have := h.irn_length; simp only []; omega)
    (by have := h.jcn_length; simp only []; omega)
    (by have := h.nz_length; simp only []; omega)
  refine ⟨p, ?_, ?_, hs.1, hs.2.1, hs.2.2⟩
  · unfold extract
    rw [List.range_eq_range']
    exact hp
  · unfold upperTriples storedEntries
    rw [List.range_eq_range']
    simpa using hinv

theorem Packed.Holds.at_index {V : Type} {p : Packed V} {ts : List (Int × Int × V)}
    (h : p.Holds ts) (d : V) (k : Nat) (hk : k < p.nnz) :
    ∃ t, t ∈ ts ∧ p.irn.getD k 0 = t.1 ∧ p.jcn.getD k 0 = t.2.1 ∧ p.nz.getD k d = t.2.2 := by
  have hk2 : k < ts.length := h.nnz_eq ▸ hk
  refine ⟨ts[k], List.getElem_mem _, ?_, ?_, ?_⟩
  · have e : p.irn[k]? = some (ts[k]).1 := by
      rw [← List.getElem?_take_of_lt hk, h.irn_eq, List.getElem?_map,
        List.getElem?_eq_getElem hk2]
      rfl
    simp [e]
  · have e : p.jcn[k]? = some (ts[k]).2.1 := by
      rw [← List.getElem?_take_of_lt hk, h.jcn_eq, List.getElem?_map,
        List.getElem?_eq_getElem hk2]
      rfl
    simp [e]
  · have e : p.nz[k]? = some (ts[k]).2.2 := by
      rw [← List.getElem?_take_of_lt hk, h.nz_eq, List.getElem?_map,
        List.getElem?_eq_getElem hk2]
      rfl
    simp [e]

theorem mem_upperTriples {V : Type} [Zero V] [DecidableEq V] (sp : Sparsity) (A : List V)
    (t : Int × Int × V) (ht : t ∈ upperTriples sp A) :
    1 ≤ t.1 ∧ t.1 ≤ t.2.1 ∧ t.2.1 ≤ (sp.ncol : Int) ∧ t.2.2 ≠ 0 := by
  unfold upperTriples at ht
  rw [List.mem_map] at ht
  obtain ⟨e, he, rfl⟩ := ht
  rw [List.mem_filter] at he
  obtain ⟨hmem, hup⟩ := he
  simp only [upperNonzero, Bool.and_eq_true, decide_eq_true_eq] at hup
  unfold storedEntries at hmem
  rw [List.mem_flatMap] at hmem
  obtain ⟨cc, hcc, hin⟩ := hmem
  rw [List.mem_range] at hcc
  unfold colEntries at hin
  rw [List.mem_map] at hin
  obtain ⟨el, _, rfl⟩ := hin
  simp only [oneBased]
  simp only at hup
  refine ⟨by omega, by omega, by omega, hup.2⟩

/-- Claim C3. On a valid column-compressed pattern the extraction loop of
`factorize` completes, and the triples `(irn[k], jcn[k], nz[k])`, `k < nnz`,
are exactly, in storage order, the triples (row+1, column+1, A[el]) of the
stored entries of the upper triangle with `A[el] != 0`; `nnz` is their number,
every packed index lies in [1,n] and no packed value is 0. -/
theorem extraction_packs_upper_nonzeros {V : Type} [Zero V] [DecidableEq V]
    (m : Ma27Memory V) (A : List V) (h : Fits m A) :
    ∃ p, extract m A = .ok p ∧
      p.triples = upperTriples m.sparsity A ∧
      (storePacked m p).nnz = ((upperTriples m.sparsity A).length : Int) ∧
      ∀ k, k < p.nnz →
        1 ≤ p.irn.getD k 0 ∧ p.irn.getD k 0 ≤ (m.sparsity.ncol : Int) ∧
        1 ≤ p.jcn.getD k 0 ∧ p.jcn.getD k 0 ≤ (m.sparsity.ncol : Int) ∧
        p.nz.getD k 0 ≠ 0 := by
  obtain ⟨p, hp, hinv, _⟩ := extract_spec m A h
  refine ⟨p, hp, hinv.triples_eq, ?_, ?_⟩
  · simp [storePacked, hinv.nnz_eq]
  · intro k hk
    obtain ⟨t, ht, e1, e2, e3⟩ := hinv.at_index 0 k hk
    have hb := mem_upperTriples m.sparsity A t ht
    rw [e1, e2, e3]
    exact ⟨hb.1, by omega, by omega, hb.2.2.1, hb.2.2.2⟩

/-- Witness for claim C3: the 2-by-2 pattern with a stored zero. -/
theorem extraction_packs_upper_nonzeros_witness :
    Fits mem2 [2, 0, 5] ∧
    ∃ p, extract mem2 [2, 0, 5] = .ok p ∧
      p.triples = upperTriples mem2.sparsity [2, 0, 5] ∧
      (storePacked mem2 p).nnz = ((upperTriples mem2.sparsity [2, 0, 5]).length : Int) ∧
      ∀ k, k < p.nnz →
        1 ≤ p.irn.getD k 0 ∧ p.irn.getD k 0 ≤ (mem2.sparsity.ncol : Int) ∧
        1 ≤ p.jcn.getD k 0 ∧ p.jcn.getD k 0 ≤ (mem2.sparsity.ncol : Int) ∧
        p.nz.getD k 0 ≠ 0 :=
  have hf : Fits mem2 [2, 0, 5] :=
    ⟨by decide, by decide, by decide, by decide, by decide, by decide, by decide⟩
  ⟨hf, extraction_packs_upper_nonzeros mem2 [2, 0, 5] hf⟩

/-- Counterexample to claim C4: for the 2-by-2 pattern with the stored entry
(0,1) the extraction keeps that entry, with `irn[1] = 1 < 2 = jcn[1]`. -/
theorem extraction_row_ge_col_counterexample :
    Fits mem2 [2, 7, 5] ∧
    ∃ p, extract mem2 [2, 7, 5] = .ok p ∧
      ¬ (∀ k, k < p.nnz → p.irn.getD k 0 ≥ p.jcn.getD k 0) := by
  refine ⟨⟨by decide, by decide, by decide, by decide, by decide, by decide, by decide⟩,
    _, rfl, ?_⟩
  intro hall
  exact absurd (hall 1 (by decide)) (by decide)

/-- Claim C4, amended. Every entry the extraction step places in the packed
lists lies on or above the diagonal: `irn[k] <= jcn[k]` for every `k < nnz`. -/
theorem extraction_row_le_col {V : Type} [Zero V] [DecidableEq V]
    (m : Ma27Memory V) (A : List V) (h : Fits m A) :
    ∃ p, extract m A = .ok p ∧ ∀ k, k < p.nnz → p.irn.getD k 0 ≤ p.jcn.getD k 0 := by
  obtain ⟨p, hp, hinv, _⟩ := extract_spec m A h
  refine ⟨p, hp, ?_⟩
  intro k hk
  obtain ⟨t, ht, e1, e2, _⟩ := hinv.at_index 0 k hk
  rw [e1, e2]
  exact (mem_upperTriples m.sparsity A t ht).2.1

/-- Witness for the amended claim C4. -/
theorem extraction_row_le_col_witness :
    Fits mem2 [2, 7, 5] ∧
    ∃ p, extract mem2 [2, 7, 5] = .ok p ∧
      ∀ k, k < p.nnz → p.irn.getD k 0 ≤ p.jcn.getD k 0 :=
  have hf : Fits mem2 [2, 7, 5] :=
    ⟨by decide, by decide, by decide, by decide, by decide, by decide, by decide⟩
  ⟨hf, extraction_row_le_col mem2 [2, 7, 5] hf⟩

theorem length_resize {α : Type} [Zero α] (xs : List α) (n : Nat) :
    (resize xs n).length = n := by
  simp only [resize, List.length_append, List.length_take, List.length_replicate]
  omega

theorem length_overwrite {α : Type} (old new : List α) :
    (overwrite old new).length = old.length := by
  simp only [overwrite, List.length_append, List.length_take, List.length_drop]
  omega

theorem overwrite_self {α : Type} (xs : List α) : overwrite xs xs = xs := by
  simp [overwrite]

theorem growTo_of_nonneg {α : Type} [Zero α] (xs : List α) (k : Int) (hk : 0 ≤ k) :
    ∃ ys, growTo xs k = .ok ys ∧ ys.length = max xs.length k.toNat := by
  unfold growTo
  rw [if_neg (by omega)]
  by_cases h : k.toNat > xs.length
  · exact ⟨_, by rw [if_pos h], by rw [length_resize]; omega⟩
  · exact ⟨_, by rw [if_neg h], by omega⟩

theorem growTo_ok {α : Type} [Zero α] (xs ys : List α) (k : Int)
    (h : growTo xs k = .ok ys) : 0 ≤ k ∧ ys.length = max xs.length k.toNat := by
  by_cases hk : 0 ≤ k
  · obtain ⟨zs, hz, hl⟩ := growTo_of_nonneg xs k hk
    rw [hz] at h
    cases h
    exact ⟨hk, hl⟩
  · unfold growTo at h
    rw [if_pos (by omega)] at h
    cases h

/-- A negative `int` compared with a size makes the `resize` throw. -/
theorem growTo_neg {α : Type} [Zero α] (xs : List α) (k : Int) (hk : k < 0) :
    growTo xs k = .error .lengthError := by
  unfold growTo
  rw [if_pos hk]

theorem doubleToInt_of_range (v : Int) (h1 : INT_MIN ≤ v) (h2 : v ≤ INT_MAX) :
    doubleToInt v = .ok v := by
  unfold doubleToInt
  rw [if_pos ⟨h1, h2⟩]

theorem doubleToInt_ok (v k : Int) (h : doubleToInt v = .ok k) :
    k = v ∧ INT_MIN ≤ v ∧ v ≤ INT_MAX := by
  unfold doubleToInt at h
  split at h
  · next hr => cases h; exact ⟨rfl, hr⟩
  · cases h

/-- What a completed growth step did. -/
theorem growStep_ok {V : Type} [Zero V] (m m3 : Ma27Memory V) (I : Int)
    (h : growStep m I = .ok m3) :
    ∃ nz iw, growTo m.nz (20 * I) = .ok nz ∧ growTo m.iw (5 * I) = .ok iw ∧
      m3 = { m with nz := nz, iw := iw } ∧ 20 * I ≤ INT_MAX := by
  unfold growStep at h
  cases h1 : doubleToInt (20 * I) with
  | error e => rw [h1] at h; cases h
  | ok la =>
    obtain ⟨rfl, _, hmax⟩ := doubleToInt_ok _ _ h1
    rw [h1] at h
    dsimp only at h
    cases h2 : growTo m.nz (20 * I) with
    | error e => rw [h2] at h; cases h
    | ok nz =>
      rw [h2] at h
      dsimp only at h
      cases h3 : doubleToInt (5 * I) with
      | error e => rw [h3] at h; cases h
      | ok liw =>
        obtain ⟨rfl, _, _⟩ := doubleToInt_ok _ _ h3
        rw [h3] at h
        dsimp only at h
        cases h4 : growTo m.iw (5 * I) with
        | error e => rw [h4] at h; cases h
        | ok iw =>
          rw [h4] at h
          cases h
          exact ⟨nz, iw, rfl, rfl, rfl, hmax⟩

/-- The growth step completes when the recommended size is a size whose
20-fold fits an `int`. -/
theorem growStep_of_range {V : Type} [Zero V] (m : Ma27Memory V) (I : Int)
    (h0 : 0 ≤ I) (hmax : 20 * I ≤ INT_MAX) :
    ∃ nz iw, growStep m I = .ok { m with nz := nz, iw := iw } ∧
      nz.length = max m.nz.length (20 * I).toNat ∧
      iw.length = max m.iw.length (5 * I).toNat := by
  have hmin : INT_MIN ≤ 0 := by decide
  obtain ⟨nz, hnz, hl1⟩ := growTo_of_nonneg m.nz (20 * I) (by omega)
  obtain ⟨iw, hiw, hl2⟩ := growTo_of_nonneg m.iw (5 * I) (by omega)
  refine ⟨nz, iw, ?_, hl1, hl2⟩
  unfold growStep
  rw [doubleToInt_of_range _ (by omega) hmax]
  dsimp only
  rw [hnz]
  dsimp only
  rw [doubleToInt_of_range _ (by omega) (by omega)]
  dsimp only
  rw [hiw]

/-- The last stage of `factorize` on the three flags that are not fatal. -/
theorem finish_of_flag {V : Type} [Zero V] (m : Ma27Memory V) (info : Nat → Int)
    (hflag : info 0 = 0 ∨ info 0 = 3 ∨ info 0 = -5) (hfront : 0 ≤ m.maxfrt) :
    ∃ w, finish m info = .ok { m with rank := rankOf m.sparsity.ncol info, w := w } ∧
      w.length = max m.w.length m.maxfrt.toNat := by
  obtain ⟨w, hw, hl⟩ := growTo_of_nonneg m.w m.maxfrt hfront
  refine ⟨w, ?_, hl⟩
  unfold finish rankOf
  rcases hflag with h | h | h
  · simp [h, hw]
  · simp [h, hw]
  · simp [h, hw]

/-- The last stage of `factorize` raises the numeric error exactly on the
other flags. -/
theorem finish_of_fatal {V : Type} [Zero V] (m : Ma27Memory V) (info : Nat → Int)
    (h0 : info 0 ≠ 0) (h3 : info 0 ≠ 3) (h5 : info 0 ≠ -5) :
    finish m info = .error (.numeric (info 0) (info 1)) := by
  unfold finish
  simp [h0, h3, h5]

/-- Why the front size must be a size: with a negative `maxfrt` the last
stage throws on the three flags that are not fatal. -/
theorem finish_of_negative_front {V : Type} [Zero V] (m : Ma27Memory V) (info : Nat → Int)
    (hflag : info 0 = 0 ∨ info 0 = 3 ∨ info 0 = -5) (hfront : m.maxfrt < 0) :
    finish m info = .error .lengthError := by
  have hw : ∀ r : Int, growTo ({ m with rank := r } : Ma27Memory V).w
      ({ m with rank := r } : Ma27Memory V).maxfrt = .error .lengthError :=
    fun _ => growTo_neg _ _ hfront
  unfold finish
  rcases hflag with h | h | h
  · simp [h, hw]
  · simp [h, hw]
  · simp [h, hw]

/-- Why the recommended size must be a size: with a negative `info[5]` the
growth step does not complete. -/
theorem growStep_of_negative {V : Type} [Zero V] (m : Ma27Memory V) (I : Int) (hI : I < 0) :
    ∃ e, growStep m I = .error e := by
  cases h : growStep m I with
  | error e => exact ⟨e, rfl⟩
  | ok m3 =>
    obtain ⟨nz, _, hnz, _, _, _⟩ := growStep_ok m m3 I h
    have := (growTo_ok _ _ _ hnz).1
    omega

/-- Why 20 times the recommended size must fit an `int`: beyond it the
conversion `int la_min = ceil(...)` is undefined. -/
theorem growStep_of_overflow {V : Type} [Zero V] (m : Ma27Memory V) (I : Int)
    (hI : INT_MAX < 20 * I) : growStep m I = .error .undefined := by
  unfold growStep doubleToInt
  rw [if_neg (by omega)]

/-- The three ways a call of `factorize` with values runs once the extraction
step has completed. -/
theorem factorize_some {V : Type} [Zero V] [DecidableEq V] (K : Kernel V)
    (m : Ma27Memory V) (a : List V) (p : Packed V) (hx : extract m a = .ok p) :
    ((K.ma27ad_ (adCallArgs m p)).info 0 ≠ 0 ∧
      Ma27Interface.factorize K m (some a) =
        { calls := [KCall.ma27ad (adCallArgs m p) (K.ma27ad_ (adCallArgs m p))],
          result := .error (.analysis ((K.ma27ad_ (adCallArgs m p)).info 0)
            ((K.ma27ad_ (adCallArgs m p)).info 1)) }) ∨
    ((K.ma27ad_ (adCallArgs m p)).info 0 = 0 ∧
      ∃ e, growStep (analysed K m p) ((K.ma27ad_ (adCallArgs m p)).info 5) = .error e ∧
        Ma27Interface.factorize K m (some a) =
          { calls := [KCall.ma27ad (adCallArgs m p) (K.ma27ad_ (adCallArgs m p))],
            result := .error e }) ∨
    ((K.ma27ad_ (adCallArgs m p)).info 0 = 0 ∧
      ∃ m3, growStep (analysed K m p) ((K.ma27ad_ (adCallArgs m p)).info 5) = .ok m3 ∧
        Ma27Interface.factorize K m (some a) =
          { calls := [KCall.ma27ad (adCallArgs m p) (K.ma27ad_ (adCallArgs m p)),
              KCall.ma27bd (bdCallArgs K m p m3) (K.ma27bd_ (bdCallArgs K m p m3))],
            result := finish (storeBd m3 (K.ma27bd_ (bdCallArgs K m p m3)))
              (K.ma27bd_ (bdCallArgs K m p m3)).info }) := by
  unfold Ma27Interface.factorize
  simp only [hx]
  by_cases hflag : (K.ma27ad_ (adCallArgs m p)).info 0 = 0
  · right
    unfold adCallArgs at hflag
    cases hg : growStep (analysed K m p) ((K.ma27ad_ (adCallArgs m p)).info 5) with
    | error e =>
      left
      unfold analysed adCallArgs at hg
      refine ⟨hflag, e, rfl, ?_⟩
      simp only [hflag, hg, adCallArgs, ne_eq, not_true_eq_false, if_false]
    | ok m3 =>
      right
      unfold analysed adCallArgs at hg
      refine ⟨hflag, m3, rfl, ?_⟩
      simp only [hflag, hg, adCallArgs, bdCallArgs, ne_eq, not_true_eq_false, if_false]
  · left
    refine ⟨hflag, ?_⟩
    unfold adCallArgs at hflag
    simp only [hflag, adCallArgs, ne_eq, not_false_eq_true, if_true]

theorem writeAt_length {α : Type} (xs ys : List α) (i : Nat) (v : α)
    (h : writeAt xs i v = .ok ys) : ys.length = xs.length := by
  unfold writeAt at h
  split at h
  · cases h; simp
  · cases h

theorem extractEntry_sizes {V : Type} [Zero V] [DecidableEq V] (row : List Nat)
    (A : List V) (cc : Nat) (st st1 : Packed V) (el : Nat)
    (h : extractEntry row A cc st el = .ok st1) : st.SameSizes st1 := by
  unfold extractEntry at h
  cases h1 : readAt row el with
  | error e => rw [h1] at h; cases h
  | ok rr =>
    rw [h1] at h
    dsimp only at h
    split at h
    · cases h; exact ⟨rfl, rfl, rfl⟩
    · cases h2 : readAt A el with
      | error e => rw [h2] at h; cases h
      | ok a =>
        rw [h2] at h
        dsimp only at h
        split at h
        · cases h3 : writeAt st.nz st.nnz a with
          | error e => rw [h3] at h; cases h
          | ok nz =>
            rw [h3] at h
            dsimp only at h
            cases h4 : writeAt st.irn st.nnz ((rr : Int) + 1) with
            | error e => rw [h4] at h; cases h
            | ok irn =>
              rw [h4] at h
              dsimp only at h
              cases h5 : writeAt st.jcn st.nnz ((cc : Int) + 1) with
              | error e => rw [h5] at h; cases h
              | ok jcn =>
                rw [h5] at h
                cases h
                exact ⟨writeAt_length _ _ _ _ h4, writeAt_length _ _ _ _ h5,
                  writeAt_length _ _ _ _ h3⟩
        · cases h; exact ⟨rfl, rfl, rfl⟩

theorem Packed.SameSizes.trans {V : Type} {p q r : Packed V} (h1 : p.SameSizes q)
    (h2 : q.SameSizes r) : p.SameSizes r :=
  ⟨h2.1.trans h1.1, h2.2.1.trans h1.2.1, h2.2.2.trans h1.2.2⟩

theorem extractEls_sizes {V : Type} [Zero V] [DecidableEq V] (row : List Nat)
    (A : List V) (cc : Nat) (els : List Nat) :
    ∀ (st st1 : Packed V), extractEls row A cc els st = .ok st1 → st.SameSizes st1 := by
  induction els with
  | nil => intro st st1 h; cases h; exact ⟨rfl, rfl, rfl⟩
  | cons el els ih =>
    intro st st1 h
    unfold extractEls at h
    cases h1 : extractEntry row A cc st el with
    | error e => rw [h1] at h; cases h
    | ok st2 =>
      rw [h1] at h
      exact (extractEntry_sizes row A cc st st2 el h1).trans (ih st2 st1 h)

theorem extractCol_sizes {V : Type} [Zero V] [DecidableEq V] (sp : Sparsity)
    (A : List V) (st st1 : Packed V) (cc : Nat)
    (h : extractCol sp A st cc = .ok st1) : st.SameSizes st1 := by
  unfold extractCol at h
  cases h1 : readAt sp.colind cc with
  | error e => rw [h1] at h; cases h
  | ok lo =>
    rw [h1] at h
    dsimp only at h
    cases h2 : readAt sp.colind (cc + 1) with
    | error e => rw [h2] at h; cases h
    | ok hi =>
      rw [h2] at h
      exact extractEls_sizes _ _ _ _ _ _ h

theorem extractCols_sizes {V : Type} [Zero V] [DecidableEq V] (sp : Sparsity)
    (A : List V) (ccs : List Nat) :
    ∀ (st st1 : Packed V), extractCols sp A ccs st = .ok st1 → st.SameSizes st1 := by
  induction ccs with
  | nil => intro st st1 h; cases h; exact ⟨rfl, rfl, rfl⟩
  | cons cc ccs ih =>
    intro st st1 h
    unfold extractCols at h
    cases h1 : extractCol sp A st cc with
    | error e => rw [h1] at h; cases h
    | ok st2 =>
      rw [h1] at h
      exact (extractCol_sizes sp A st st2 cc h1).trans (ih st2 st1 h)

/-- The extraction step never changes the size of a buffer. -/
theorem extract_sizes {V : Type} [Zero V] [DecidableEq V] (m : Ma27Memory V) (A : List V)
    (p : Packed V) (h : extract m A = .ok p) :
    p.irn.length = m.irn.length ∧ p.jcn.length = m.jcn.length ∧
      p.nz.length = m.nz.length :=
  extractCols_sizes _ _ _ _ _ h

/-- The calls and the outcome of a call of `factorize` that reached the
numeric kernel. -/
theorem factorize_of_bd_call {V : Type} [Zero V] [DecidableEq V] (K : Kernel V)
    (m : Ma27Memory V) (A : Option (List V)) (ba : Ma27bdArgs V) (br : Ma27bdRet V)
    (hcall : KCall.ma27bd ba br ∈ (Ma27Interface.factorize K m A).calls) :
    ∃ a p m3, A = some a ∧ extract m a = .ok p ∧
      (K.ma27ad_ (adCallArgs m p)).info 0 = 0 ∧
      growStep (analysed K m p) ((K.ma27ad_ (adCallArgs m p)).info 5) = .ok m3 ∧
      ba = bdCallArgs K m p m3 ∧ br = K.ma27bd_ ba ∧
      Ma27Interface.factorize K m A =
        { calls := [KCall.ma27ad (adCallArgs m p) (K.ma27ad_ (adCallArgs m p)),
            KCall.ma27bd ba br],
          result := finish (storeBd m3 br) br.info } := by
  cases A with
  | none => simp [Ma27Interface.factorize] at hcall
  | some a =>
    cases hx : extract m a with
    | error e => simp [Ma27Interface.factorize, hx] at hcall
    | ok p =>
      rcases factorize_some K m a p hx with ⟨_, h⟩ | ⟨_, e, _, h⟩ | ⟨hflag, m3, hg, h⟩
      · rw [h] at hcall; simp at hcall
      · rw [h] at hcall; simp at hcall
      · rw [h] at hcall
        simp only [List.mem_cons, List.mem_singleton, KCall.ma27bd.injEq, reduceCtorEq,
          false_or, List.not_mem_nil, or_false] at hcall
        obtain ⟨rfl, rfl⟩ := hcall
        exact ⟨a, p, m3, rfl, hx, hflag, hg, rfl, rfl, h⟩

/-- Claim C1. When `factorize` has called the numeric kernel (so analysis
passed with flag 0) and the kernel left a non-negative front size, the flag
`f = info[0]` it reports decides the stored rank: `f = 0` gives `rank = n`,
`f = 3` gives `rank = info[1]`, `f = -5` gives `rank = -1`; in all three cases
`factorize` completes without an error and the stored negative-eigenvalue
count is `info[14]`. -/
theorem factorize_rank_of_flag {V : Type} [Zero V] [DecidableEq V] (K : Kernel V)
    (m : Ma27Memory V) (A : Option (List V)) (ba : Ma27bdArgs V) (br : Ma27bdRet V)
    (hcall : KCall.ma27bd ba br ∈ (Ma27Interface.factorize K m A).calls)
    (hfront : 0 ≤ br.maxfrt) :
    (∃ aa ar, (Ma27Interface.factorize K m A).calls =
        [KCall.ma27ad aa ar, KCall.ma27bd ba br] ∧ ar.info 0 = 0) ∧
    (br.info 0 = 0 → ∃ m1, (Ma27Interface.factorize K m A).result = .ok m1 ∧
      m1.rank = (m.sparsity.ncol : Int) ∧ m1.neig = br.info 14) ∧
    (br.info 0 = 3 → ∃ m1, (Ma27Interface.factorize K m A).result = .ok m1 ∧
      m1.rank = br.info 1 ∧ m1.neig = br.info 14) ∧
    (br.info 0 = -5 → ∃ m1, (Ma27Interface.factorize K m A).result = .ok m1 ∧
      m1.rank = -1 ∧ m1.neig = br.info 14) := by
  obtain ⟨a, p, m3, rfl, hx, hflag, hg, hba, hbr, hrun⟩ :=
    factorize_of_bd_call K m A ba br hcall
  obtain ⟨nz, iw, _, _, hm3, _⟩ := growStep_ok _ _ _ hg
  have hsp : (storeBd m3 br).sparsity = m.sparsity := by rw [hm3]; rfl
  have hstage : ∀ hf : br.info 0 = 0 ∨ br.info 0 = 3 ∨ br.info 0 = -5,
      ∃ m1, (Ma27Interface.factorize K m (some a)).result = .ok m1 ∧
        m1.rank = rankOf m.sparsity.ncol br.info ∧ m1.neig = br.info 14 := by
    intro hf
    obtain ⟨w, hw, _⟩ := finish_of_flag (storeBd m3 br) br.info hf hfront
    rw [hrun]
    exact ⟨_, hw, by rw [hsp], rfl⟩
  refine ⟨⟨_, _, by rw [hrun], hflag⟩, ?_, ?_, ?_⟩
  · intro hf
    obtain ⟨m1, h1, h2, h3⟩ := hstage (Or.inl hf)
    exact ⟨m1, h1, by rw [h2]; simp [rankOf, hf], h3⟩
  · intro hf
    obtain ⟨m1, h1, h2, h3⟩ := hstage (Or.inr (Or.inl hf))
    exact ⟨m1, h1, by rw [h2]; simp [rankOf, hf], h3⟩
  · intro hf
    obtain ⟨m1, h1, h2, h3⟩ := hstage (Or.inr (Or.inr hf))
    exact ⟨m1, h1, by rw [h2]; simp [rankOf, hf], h3⟩

/-- Witness for claim C1: a rank-deficient factorization of a 2-by-2 matrix. -/
theorem factorize_rank_of_flag_witness :
    KCall.ma27bd bdArgs2 (kernel3.ma27bd_ bdArgs2) ∈
      (Ma27Interface.factorize kernel3 mem2 (some [2, 7, 5])).calls ∧
    0 ≤ (kernel3.ma27bd_ bdArgs2).maxfrt ∧
    (kernel3.ma27bd_ bdArgs2).info 0 = 3 ∧
    ((∃ aa ar, (Ma27Interface.factorize kernel3 mem2 (some [2, 7, 5])).calls =
        [KCall.ma27ad aa ar, KCall.ma27bd bdArgs2 (kernel3.ma27bd_ bdArgs2)] ∧
        ar.info 0 = 0) ∧
    ((kernel3.ma27bd_ bdArgs2).info 0 = 0 →
      ∃ m1, (Ma27Interface.factorize kernel3 mem2 (some [2, 7, 5])).result = .ok m1 ∧
        m1.rank = (mem2.sparsity.ncol : Int) ∧ m1.neig = (kernel3.ma27bd_ bdArgs2).info 14) ∧
    ((kernel3.ma27bd_ bdArgs2).info 0 = 3 →
      ∃ m1, (Ma27Interface.factorize kernel3 mem2 (some [2, 7, 5])).result = .ok m1 ∧
        m1.rank = (kernel3.ma27bd_ bdArgs2).info 1 ∧
        m1.neig = (kernel3.ma27bd_ bdArgs2).info 14) ∧
    ((kernel3.ma27bd_ bdArgs2).info 0 = -5 →
      ∃ m1, (Ma27Interface.factorize kernel3 mem2 (some [2, 7, 5])).result = .ok m1 ∧
        m1.rank = -1 ∧ m1.neig = (kernel3.ma27bd_ bdArgs2).info 14)) :=
  have hcall : KCall.ma27bd bdArgs2 (kernel3.ma27bd_ bdArgs2) ∈
      (Ma27Interface.factorize kernel3 mem2 (some [2, 7, 5])).calls :=
    List.Mem.tail _ (List.Mem.head _)
  have hfront : 0 ≤ (kernel3.ma27bd_ bdArgs2).maxfrt := by decide
  ⟨hcall, hfront, rfl,
    factorize_rank_of_flag kernel3 mem2 (some [2, 7, 5]) bdArgs2 (kernel3.ma27bd_ bdArgs2)
      hcall hfront⟩

/-- The extraction result and the analysis call of a call of `factorize`
that called `ma27ad_`. -/
theorem factorize_of_ad_call {V : Type} [Zero V] [DecidableEq V] (K : Kernel V)
    (m : Ma27Memory V) (A : Option (List V)) (aa : Ma27adArgs V) (ar : Ma27adRet V)
    (hcall : KCall.ma27ad aa ar ∈ (Ma27Interface.factorize K m A).calls) :
    ∃ a p, A = some a ∧ extract m a = .ok p ∧ aa = adCallArgs m p ∧ ar = K.ma27ad_ aa := by
  cases A with
  | none => simp [Ma27Interface.factorize] at hcall
  | some a =>
    cases hx : extract m a with
    | error e => simp [Ma27Interface.factorize, hx] at hcall
    | ok p =>
      refine ⟨a, p, rfl, hx, ?_⟩
      rcases factorize_some K m a p hx with ⟨_, h⟩ | ⟨_, e, _, h⟩ | ⟨_, m3, _, h⟩
      all_goals
        rw [h] at hcall
        simp only [List.mem_cons, List.mem_singleton, KCall.ma27ad.injEq, reduceCtorEq,
          or_false, List.not_mem_nil] at hcall
        obtain ⟨rfl, rfl⟩ := hcall
        exact ⟨rfl, rfl⟩

/-- Counterexample to claim C2: on a valid context, with non-null values, a
clean analysis (flag 0) that recommends `I = 200000000` makes `factorize`
raise an error in the growth step, although the values pointer is not null,
no analysis flag differs from 0 and the numeric kernel is never called. -/
theorem factorize_error_causes_counterexample :
    Fits mem2 [2, 7, 5] ∧
    (∃ e, (Ma27Interface.factorize kernelBig mem2 (some [2, 7, 5])).result = .error e) ∧
    ¬ ((some [2, 7, 5] : Option (List Int)) = none ∨
        (∃ aa ar, KCall.ma27ad aa ar ∈
            (Ma27Interface.factorize kernelBig mem2 (some [2, 7, 5])).calls ∧
          ar.info 0 ≠ 0) ∨
        (∃ ba br, KCall.ma27bd ba br ∈
            (Ma27Interface.factorize kernelBig mem2 (some [2, 7, 5])).calls ∧
          br.info 0 ≠ 0 ∧ br.info 0 ≠ 3 ∧ br.info 0 ≠ -5)) := by
  have hcalls : (Ma27Interface.factorize kernelBig mem2 (some [2, 7, 5])).calls =
      [KCall.ma27ad (adCallArgs mem2 packed2) (kernelBig.ma27ad_ (adCallArgs mem2 packed2))] :=
    rfl
  refine ⟨⟨by decide, by decide, by decide, by decide, by decide, by decide, by decide⟩,
    ⟨.undefined, rfl⟩, ?_⟩
  rintro (h | ⟨aa, ar, hcall, hne⟩ | ⟨ba, br, hcall, _⟩)
  · cases h
  · rw [hcalls] at hcall
    simp only [List.mem_singleton, KCall.ma27ad.injEq] at hcall
    obtain ⟨rfl, rfl⟩ := hcall
    exact hne rfl
  · rw [hcalls] at hcall
    simp at hcall

/-- Claim C2, amended. On a valid context `factorize` raises an error if and
only if the values pointer is null, or `ma27ad_` reports a flag other than 0,
or the analysis is clean but the growth step cannot be carried out (the
recommended size `info[5]` is negative or its 20-fold exceeds the largest
`int`), or `ma27bd_` reports a flag that is none of 0, 3 and -5, or `ma27bd_`
leaves a negative front size `maxfrt`. When the analysis flag is not 0, or
the growth step cannot be carried out, the only kernel call made is the one
call of `ma27ad_`: the numeric kernel is not invoked. -/
theorem factorize_error_iff {V : Type} [Zero V] [DecidableEq V] (K : Kernel V)
    (m : Ma27Memory V) (A : Option (List V))
    (hfit : ∀ a, A = some a → Fits m a) :
    ((∃ e, (Ma27Interface.factorize K m A).result = .error e) ↔
      (A = none ∨
        (∃ aa ar, KCall.ma27ad aa ar ∈ (Ma27Interface.factorize K m A).calls ∧
          ar.info 0 ≠ 0) ∨
        (∃ aa ar, KCall.ma27ad aa ar ∈ (Ma27Interface.factorize K m A).calls ∧
          ar.info 0 = 0 ∧ (ar.info 5 < 0 ∨ INT_MAX < 20 * ar.info 5)) ∨
        (∃ ba br, KCall.ma27bd ba br ∈ (Ma27Interface.factorize K m A).calls ∧
          br.info 0 ≠ 0 ∧ br.info 0 ≠ 3 ∧ br.info 0 ≠ -5) ∨
        (∃ ba br, KCall.ma27bd ba br ∈ (Ma27Interface.factorize K m A).calls ∧
          br.maxfrt < 0))) ∧
    (∀ aa ar, KCall.ma27ad aa ar ∈ (Ma27Interface.factorize K m A).calls →
      ar.info 0 ≠ 0 →
      (Ma27Interface.factorize K m A).calls = [KCall.ma27ad aa ar] ∧
      (Ma27Interface.factorize K m A).result =
        .error (.analysis (ar.info 0) (ar.info 1))) ∧
    (∀ aa ar, KCall.ma27ad aa ar ∈ (Ma27Interface.factorize K m A).calls →
      ar.info 0 = 0 → (ar.info 5 < 0 ∨ INT_MAX < 20 * ar.info 5) →
      (Ma27Interface.factorize K m A).calls = [KCall.ma27ad aa ar]) := by
  cases A with
  | none =>
    refine ⟨⟨fun _ => Or.inl rfl, fun _ => ⟨.assertion, rfl⟩⟩, ?_, ?_⟩
    · intro aa ar hcall
      simp [Ma27Interface.factorize] at hcall
    · intro aa ar hcall
      simp [Ma27Interface.factorize] at hcall
  | some a =>
    obtain ⟨p, hx, _⟩ := extract_spec m a (hfit a rfl)
    rcases factorize_some K m a p hx with ⟨hflag, h⟩ | ⟨hflag, e, hg, h⟩ | ⟨hflag, m3, hg, h⟩
    · rw [h]
      refine ⟨⟨fun _ => Or.inr (Or.inl ⟨_, _, List.mem_singleton.mpr rfl, hflag⟩),
        fun _ => ⟨_, rfl⟩⟩, ?_, ?_⟩
      · intro aa ar hcall _
        simp only [List.mem_singleton, KCall.ma27ad.injEq] at hcall
        obtain ⟨rfl, rfl⟩ := hcall
        exact ⟨rfl, rfl⟩
      · intro aa ar hcall _ _
        simp only [List.mem_singleton, KCall.ma27ad.injEq] at hcall
        obtain ⟨rfl, rfl⟩ := hcall
        rfl
    · rw [h]
      have hrange : (K.ma27ad_ (adCallArgs m p)).info 5 < 0 ∨
          INT_MAX < 20 * (K.ma27ad_ (adCallArgs m p)).info 5 := by
        by_contra hcon
        obtain ⟨nz, iw, hok, _⟩ := growStep_of_range (analysed K m p)
          ((K.ma27ad_ (adCallArgs m p)).info 5) (by omega) (by omega)
        rw [hok] at hg
        cases hg
      refine ⟨⟨fun _ => Or.inr (Or.inr (Or.inl
        ⟨_, _, List.mem_singleton.mpr rfl, hflag, hrange⟩)), fun _ => ⟨_, rfl⟩⟩, ?_, ?_⟩
      · intro aa ar hcall hne
        simp only [List.mem_singleton, KCall.ma27ad.injEq] at hcall
        obtain ⟨rfl, rfl⟩ := hcall
        exact absurd hflag hne
      · intro aa ar hcall _ _
        simp only [List.mem_singleton, KCall.ma27ad.injEq] at hcall
        obtain ⟨rfl, rfl⟩ := hcall
        rfl
    · rw [h]
      obtain ⟨nz, iw, hnz, _, _, hmax⟩ := growStep_ok _ _ _ hg
      have hI : 0 ≤ (K.ma27ad_ (adCallArgs m p)).info 5 := by
        have := (growTo_ok _ _ _ hnz).1
        omega
      have hfin : ∀ hf : (K.ma27bd_ (bdCallArgs K m p m3)).info 0 = 0 ∨
          (K.ma27bd_ (bdCallArgs K m p m3)).info 0 = 3 ∨
          (K.ma27bd_ (bdCallArgs K m p m3)).info 0 = -5,
          0 ≤ (K.ma27bd_ (bdCallArgs K m p m3)).maxfrt →
          ∀ e, finish (storeBd m3 (K.ma27bd_ (bdCallArgs K m p m3)))
            (K.ma27bd_ (bdCallArgs K m p m3)).info ≠ .error e := by
        intro hf hfront e he
        obtain ⟨w, hw, _⟩ := finish_of_flag (storeBd m3 (K.ma27bd_ (bdCallArgs K m p m3)))
          _ hf hfront
        rw [hw] at he
        cases he
      refine ⟨⟨?_, ?_⟩, ?_, ?_⟩
      · rintro ⟨e, he⟩
        right; right; right
        by_cases hfront : (K.ma27bd_ (bdCallArgs K m p m3)).maxfrt < 0
        · exact Or.inr ⟨_, _, List.mem_cons_of_mem _ (List.mem_singleton.mpr rfl), hfront⟩
        · left
          refine ⟨_, _, List.mem_cons_of_mem _ (List.mem_singleton.mpr rfl), ?_⟩
          by_contra hcon
          have hf : (K.ma27bd_ (bdCallArgs K m p m3)).info 0 = 0 ∨
              (K.ma27bd_ (bdCallArgs K m p m3)).info 0 = 3 ∨
              (K.ma27bd_ (bdCallArgs K m p m3)).info 0 = -5 := by
            by_cases h0 : (K.ma27bd_ (bdCallArgs K m p m3)).info 0 = 0
            · exact Or.inl h0
            · by_cases h3 : (K.ma27bd_ (bdCallArgs K m p m3)).info 0 = 3
              · exact Or.inr (Or.inl h3)
              · by_cases h5 : (K.ma27bd_ (bdCallArgs K m p m3)).info 0 = -5
                · exact Or.inr (Or.inr h5)
                · exact absurd ⟨h0, h3, h5⟩ hcon
          exact hfin hf (by omega) e he
      · rintro (hnone | ⟨aa, ar, hcall, hne⟩ | ⟨aa, ar, hcall, _, hr⟩ |
          ⟨ba, br, hcall, h0, h3, h5⟩ | ⟨ba, br, hcall, hfront⟩)
        · cases hnone
        · simp only [List.mem_cons, List.mem_singleton, KCall.ma27ad.injEq, reduceCtorEq,
            or_false, List.not_mem_nil] at hcall
          obtain ⟨rfl, rfl⟩ := hcall
          exact absurd hflag hne
        · simp only [List.mem_cons, List.mem_singleton, KCall.ma27ad.injEq, reduceCtorEq,
            or_false, List.not_mem_nil] at hcall
          obtain ⟨rfl, rfl⟩ := hcall
          exfalso
          omega
        · simp only [List.mem_cons, List.mem_singleton, KCall.ma27bd.injEq, reduceCtorEq,
            false_or, List.not_mem_nil, or_false] at hcall
          obtain ⟨rfl, rfl⟩ := hcall
          exact ⟨_, finish_of_fatal _ _ h0 h3 h5⟩
        · simp only [List.mem_cons, List.mem_singleton, KCall.ma27bd.injEq, reduceCtorEq,
            false_or, List.not_mem_nil, or_false] at hcall
          obtain ⟨rfl, rfl⟩ := hcall
          by_cases hf : (K.ma27bd_ (bdCallArgs K m p m3)).info 0 = 0 ∨
              (K.ma27bd_ (bdCallArgs K m p m3)).info 0 = 3 ∨
              (K.ma27bd_ (bdCallArgs K m p m3)).info 0 = -5
          · exact ⟨_, finish_of_negative_front _ _ hf hfront⟩
          · have h0 : (K.ma27bd_ (bdCallArgs K m p m3)).info 0 ≠ 0 := fun h => hf (Or.inl h)
            have h3 : (K.ma27bd_ (bdCallArgs K m p m3)).info 0 ≠ 3 :=
              fun h => hf (Or.inr (Or.inl h))
            have h5 : (K.ma27bd_ (bdCallArgs K m p m3)).info 0 ≠ -5 :=
              fun h => hf (Or.inr (Or.inr h))
            exact ⟨_, finish_of_fatal _ _ h0 h3 h5⟩
      · intro aa ar hcall hne
        simp only [List.mem_cons, List.mem_singleton, KCall.ma27ad.injEq, reduceCtorEq,
          or_false, List.not_mem_nil] at hcall
        obtain ⟨rfl, rfl⟩ := hcall
        exact absurd hflag hne
      · intro aa ar hcall _ hr
        simp only [List.mem_cons, List.mem_singleton, KCall.ma27ad.injEq, reduceCtorEq,
          or_false, List.not_mem_nil] at hcall
        obtain ⟨rfl, rfl⟩ := hcall
        exfalso
        omega

theorem fits_mem2 (A : List Int) (h : 3 ≤ A.length) : Fits mem2 A :=
  ⟨by decide, by decide, by decide, h, by decide, by decide, by decide⟩

/-- Witness for the amended claim C2: a valid context and a kernel whose
numeric factorization reports the fatal flag -3. -/
theorem factorize_error_iff_witness :
    (∀ a, some [2, 7, 5] = some a → Fits mem2 a) ∧
    (((∃ e, (Ma27Interface.factorize kernelFatal mem2 (some [2, 7, 5])).result = .error e) ↔
      ((some [2, 7, 5] : Option (List Int)) = none ∨
        (∃ aa ar, KCall.ma27ad aa ar ∈
            (Ma27Interface.factorize kernelFatal mem2 (some [2, 7, 5])).calls ∧
          ar.info 0 ≠ 0) ∨
        (∃ aa ar, KCall.ma27ad aa ar ∈
            (Ma27Interface.factorize kernelFatal mem2 (some [2, 7, 5])).calls ∧
          ar.info 0 = 0 ∧ (ar.info 5 < 0 ∨ INT_MAX < 20 * ar.info 5)) ∨
        (∃ ba br, KCall.ma27bd ba br ∈
            (Ma27Interface.factorize kernelFatal mem2 (some [2, 7, 5])).calls ∧
          br.info 0 ≠ 0 ∧ br.info 0 ≠ 3 ∧ br.info 0 ≠ -5) ∨
        (∃ ba br, KCall.ma27bd ba br ∈
            (Ma27Interface.factorize kernelFatal mem2 (some [2, 7, 5])).calls ∧
          br.maxfrt < 0))) ∧
    (∀ aa ar, KCall.ma27ad aa ar ∈
        (Ma27Interface.factorize kernelFatal mem2 (some [2, 7, 5])).calls →
      ar.info 0 ≠ 0 →
      (Ma27Interface.factorize kernelFatal mem2 (some [2, 7, 5])).calls =
        [KCall.ma27ad aa ar] ∧
      (Ma27Interface.factorize kernelFatal mem2 (some [2, 7, 5])).result =
        .error (.analysis (ar.info 0) (ar.info 1))) ∧
    (∀ aa ar, KCall.ma27ad aa ar ∈
        (Ma27Interface.factorize kernelFatal mem2 (some [2, 7, 5])).calls →
      ar.info 0 = 0 → (ar.info 5 < 0 ∨ INT_MAX < 20 * ar.info 5) →
      (Ma27Interface.factorize kernelFatal mem2 (some [2, 7, 5])).calls =
        [KCall.ma27ad aa ar])) :=
  have hfit : ∀ a, some [2, 7, 5] = some a → Fits mem2 a :=
    fun a ha => Option.some.inj ha ▸ fits_mem2 [2, 7, 5] (by decide)
  ⟨hfit, factorize_error_iff kernelFatal mem2 (some [2, 7, 5]) hfit⟩

/-- Counterexample to claim C8: the analysis succeeds (flag 0) with the
non-negative recommended size `I = 200000000`; the growth step cannot be
carried out, `factorize` raises an error, the numeric kernel is never called
and no workspace of 20*I or 5*I entries is produced. -/
theorem factorize_growth_overflow_counterexample :
    (Ma27Interface.factorize kernelBig mem1 (some [2])).calls =
      [KCall.ma27ad (adCallArgs mem1 packed1) (kernelBig.ma27ad_ (adCallArgs mem1 packed1))] ∧
    (kernelBig.ma27ad_ (adCallArgs mem1 packed1)).info 0 = 0 ∧
    (kernelBig.ma27ad_ (adCallArgs mem1 packed1)).info 5 = 200000000 ∧
    0 ≤ (kernelBig.ma27ad_ (adCallArgs mem1 packed1)).info 5 ∧
    (∃ e, growStep (analysed kernelBig mem1 packed1)
      ((kernelBig.ma27ad_ (adCallArgs mem1 packed1)).info 5) = .error e) ∧
    (∃ e, (Ma27Interface.factorize kernelBig mem1 (some [2])).result = .error e) ∧
    ¬ (∃ ba br, KCall.ma27bd ba br ∈
        (Ma27Interface.factorize kernelBig mem1 (some [2])).calls) := by
  have hcalls : (Ma27Interface.factorize kernelBig mem1 (some [2])).calls =
      [KCall.ma27ad (adCallArgs mem1 packed1)
        (kernelBig.ma27ad_ (adCallArgs mem1 packed1))] := rfl
  refine ⟨hcalls, rfl, rfl, by decide, ⟨.undefined, rfl⟩, ⟨.undefined, rfl⟩, ?_⟩
  rintro ⟨ba, br, hcall⟩
  rw [hcalls] at hcall
  simp at hcall

/-- Claim C8, amended. When the analysis of a call of `factorize` succeeds
with a non-negative recommended integer-array size `I = info[5]` whose 20-fold
fits an `int`, the numeric kernel is called with a real workspace `nz` of size
max(previous size, 20*I) and an integer workspace `iw` of size max(previous
size, 5*I); neither buffer is smaller than when the call began, and a
completed call leaves them at these sizes. -/
theorem factorize_growth {V : Type} [Zero V] [DecidableEq V] (K : Kernel V)
    (m : Ma27Memory V) (A : Option (List V)) (aa : Ma27adArgs V) (ar : Ma27adRet V)
    (hcall : KCall.ma27ad aa ar ∈ (Ma27Interface.factorize K m A).calls)
    (hflag : ar.info 0 = 0) (h0 : 0 ≤ ar.info 5) (hmax : 20 * ar.info 5 ≤ INT_MAX) :
    ∃ ba br, (Ma27Interface.factorize K m A).calls =
        [KCall.ma27ad aa ar, KCall.ma27bd ba br] ∧
      ba.nz.length = max m.nz.length (20 * ar.info 5).toNat ∧
      ba.iw.length = max m.iw.length (5 * ar.info 5).toNat ∧
      m.nz.length ≤ ba.nz.length ∧ m.iw.length ≤ ba.iw.length ∧
      ∀ m1, (Ma27Interface.factorize K m A).result = .ok m1 →
        m1.nz.length = ba.nz.length ∧ m1.iw.length = ba.iw.length := by
  obtain ⟨a, p, rfl, hx, rfl, rfl⟩ := factorize_of_ad_call K m A aa ar hcall
  obtain ⟨nz, iw, hok, hl1, hl2⟩ := growStep_of_range (analysed K m p) _ h0 hmax
  have hs := extract_sizes m a p hx
  have e1 : (analysed K m p).nz.length = m.nz.length := hs.2.2
  have e2 : (analysed K m p).iw.length = m.iw.length := length_overwrite _ _
  rcases factorize_some K m a p hx with ⟨hne, _⟩ | ⟨_, e, hg, _⟩ | ⟨_, m3, hg, h⟩
  · exact absurd hflag hne
  · rw [hok] at hg; cases hg
  · rw [hok] at hg
    cases hg
    rw [h]
    refine ⟨_, _, rfl, ?_, ?_, ?_, ?_, ?_⟩
    · show nz.length = _
      rw [hl1, e1]
    · show iw.length = _
      rw [hl2, e2]
    · show m.nz.length ≤ nz.length
      rw [hl1, e1]; exact Nat.le_max_left _ _
    · show m.iw.length ≤ iw.length
      rw [hl2, e2]; exact Nat.le_max_left _ _
    · intro m1 hm1
      simp only [finish] at hm1
      split at hm1
      · cases hm1
      · next mr hr =>
        split at hm1
        · cases hm1
        · cases hm1
          have hmr : mr.nz.length = nz.length ∧ mr.iw.length = iw.length := by
            split at hr
            · cases hr; exact ⟨length_overwrite _ _, length_overwrite _ _⟩
            · split at hr
              · cases hr; exact ⟨length_overwrite _ _, length_overwrite _ _⟩
              · split at hr
                · cases hr
                · cases hr; exact ⟨length_overwrite _ _, length_overwrite _ _⟩
          exact hmr

/-- Witness for the amended claim C8: `I = 1` grows `nz` from 6 to 20 entries and leaves
`iw` at 26. -/
theorem factorize_growth_witness :
    KCall.ma27ad (adCallArgs mem2 packed2) (kernel3.ma27ad_ (adCallArgs mem2 packed2)) ∈
      (Ma27Interface.factorize kernel3 mem2 (some [2, 7, 5])).calls ∧
    (kernel3.ma27ad_ (adCallArgs mem2 packed2)).info 0 = 0 ∧
    0 ≤ (kernel3.ma27ad_ (adCallArgs mem2 packed2)).info 5 ∧
    20 * (kernel3.ma27ad_ (adCallArgs mem2 packed2)).info 5 ≤ INT_MAX ∧
    ∃ ba br, (Ma27Interface.factorize kernel3 mem2 (some [2, 7, 5])).calls =
        [KCall.ma27ad (adCallArgs mem2 packed2) (kernel3.ma27ad_ (adCallArgs mem2 packed2)),
          KCall.ma27bd ba br] ∧
      ba.nz.length = max mem2.nz.length
        (20 * (kernel3.ma27ad_ (adCallArgs mem2 packed2)).info 5).toNat ∧
      ba.iw.length = max mem2.iw.length
        (5 * (kernel3.ma27ad_ (adCallArgs mem2 packed2)).info 5).toNat ∧
      mem2.nz.length ≤ ba.nz.length ∧ mem2.iw.length ≤ ba.iw.length ∧
      ∀ m1, (Ma27Interface.factorize kernel3 mem2 (some [2, 7, 5])).result = .ok m1 →
        m1.nz.length = ba.nz.length ∧ m1.iw.length = ba.iw.length :=
  have hcall : KCall.ma27ad (adCallArgs mem2 packed2)
      (kernel3.ma27ad_ (adCallArgs mem2 packed2)) ∈
      (Ma27Interface.factorize kernel3 mem2 (some [2, 7, 5])).calls :=
    List.Mem.head _
  ⟨hcall, rfl, by decide, by decide,
    factorize_growth kernel3 mem2 (some [2, 7, 5]) _ _ hcall rfl (by decide) (by decide)⟩

theorem length_segment_le {V : Type} (x : List V) (off n : Nat) :
    (segment x off n).length ≤ n := by
  simp only [segment, List.length_take]
  omega

theorem putSegment_of_length_le {V : Type} (x : List V) (off n : Nat) (new : List V)
    (h : x.length ≤ off) : putSegment x off n new = x := by
  have h1 : x.drop off = [] := List.drop_eq_nil_of_le h
  have h2 : x.drop (off + n) = [] := List.drop_eq_nil_of_le (by omega)
  have h3 : x.take off = x := List.take_of_length_le h
  simp [putSegment, segment, overwrite, h1, h2, h3]

theorem take_putSegment {V : Type} (x : List V) (off n : Nat) (new : List V) :
    (putSegment x off n new).take off = x.take off := by
  by_cases h : x.length ≤ off
  · rw [putSegment_of_length_le x off n new h]
  · have hl : (x.take off).length = off := by rw [List.length_take]; omega
    unfold putSegment
    rw [List.append_assoc, List.take_append_eq_append_take, hl, Nat.sub_self,
      List.take_zero, List.append_nil, List.take_take, Nat.min_self]

theorem drop_putSegment {V : Type} (x : List V) (off n : Nat) (new : List V) :
    (putSegment x off n new).drop (off + n) = x.drop (off + n) := by
  by_cases h : x.length ≤ off
  · rw [putSegment_of_length_le x off n new h]
  · have hl : (x.take off).length = off := by rw [List.length_take]; omega
    have hs : (overwrite (segment x off n) new).length = min n (x.length - off) := by
      rw [length_overwrite]
      simp [segment, List.length_take, List.length_drop]
    unfold putSegment
    by_cases h2 : off + n ≤ x.length
    · have hlen : (x.take off ++ overwrite (segment x off n) new).length = off + n := by
        rw [List.length_append, hl, hs]; omega
      rw [List.drop_append_eq_append_drop, hlen, Nat.sub_self, List.drop_zero,
        List.drop_eq_nil_of_le (by omega), List.nil_append]
    · have hd : x.drop (off + n) = [] := List.drop_eq_nil_of_le (by omega)
      rw [hd, List.append_nil]
      apply List.drop_eq_nil_of_le
      rw [List.length_append, hl, hs]
      omega

theorem segment_putSegment {V : Type} (x : List V) (off n : Nat) (new : List V) :
    segment (putSegment x off n new) off n = overwrite (segment x off n) new := by
  by_cases h : x.length ≤ off
  · rw [putSegment_of_length_le x off n new h]
    have h1 : x.drop off = [] := List.drop_eq_nil_of_le h
    simp [segment, overwrite, h1]
  · have hl : (x.take off).length = off := by rw [List.length_take]; omega
    have hs : (overwrite (segment x off n) new).length = min n (x.length - off) := by
      rw [length_overwrite]
      simp [segment, List.length_take, List.length_drop]
    unfold putSegment
    rw [List.append_assoc]
    show List.take n (List.drop off (x.take off ++ _)) = _
    rw [List.drop_append_eq_append_drop, hl, Nat.sub_self, List.drop_zero,
      List.drop_eq_nil_of_le (by omega), List.nil_append, List.take_append_eq_append_take]
    by_cases h2 : off + n ≤ x.length
    · rw [hs, show n - min n (x.length - off) = 0 by omega, List.take_zero, List.append_nil,
        List.take_of_length_le (by omega)]
    · have hd : x.drop (off + n) = [] := List.drop_eq_nil_of_le (by omega)
      rw [hd, List.take_nil, List.append_nil, List.take_of_length_le (by omega)]

theorem segment_congr_take {V : Type} (y z : List V) (off n : Nat)
    (h : y.take (off + n) = z.take (off + n)) : segment y off n = segment z off n := by
  have e : ∀ l : List V, segment l off n = (l.take (off + n)).drop off := by
    intro l
    rw [List.drop_take]
    simp [segment]
  rw [e, e, h]

theorem segment_congr_drop {V : Type} (y z : List V) (off1 off n : Nat) (hle : off1 ≤ off)
    (h : y.drop off1 = z.drop off1) : segment y off n = segment z off n := by
  have e : ∀ l : List V, segment l off n = ((l.drop off1).drop (off - off1)).take n := by
    intro l
    rw [List.drop_drop]
    simp only [segment]
    congr 2
    omega
  rw [e, e, h]

theorem take_of_take_eq {V : Type} (y z : List V) (a b : Nat) (hab : a ≤ b)
    (h : y.take b = z.take b) : y.take a = z.take a := by
  have e : ∀ l : List V, l.take a = (l.take b).take a := by
    intro l
    rw [List.take_take, Nat.min_eq_left hab]
  rw [e y, e z, h]

theorem solveLoop_succ {V : Type} (K : Kernel V) (N : Nat) (LA LIW : Int) (count off : Nat)
    (m : Ma27Memory V) (x : List V) :
    solveLoop K N LA LIW (count + 1) off m x =
      { calls := KCall.ma27cd (cdArgs m (N : Int) LA LIW (segment x off N))
            (K.ma27cd_ (cdArgs m (N : Int) LA LIW (segment x off N))) ::
          (solveLoop K N LA LIW count (off + N)
            (storeCd m (K.ma27cd_ (cdArgs m (N : Int) LA LIW (segment x off N))))
            (putSegment x off N
              (K.ma27cd_ (cdArgs m (N : Int) LA LIW (segment x off N))).x)).calls,
        mem := (solveLoop K N LA LIW count (off + N)
            (storeCd m (K.ma27cd_ (cdArgs m (N : Int) LA LIW (segment x off N))))
            (putSegment x off N
              (K.ma27cd_ (cdArgs m (N : Int) LA LIW (segment x off N))).x)).mem,
        x := (solveLoop K N LA LIW count (off + N)
            (storeCd m (K.ma27cd_ (cdArgs m (N : Int) LA LIW (segment x off N))))
            (putSegment x off N
              (K.ma27cd_ (cdArgs m (N : Int) LA LIW (segment x off N))).x)).x } :=
  rfl

theorem solveLoop_calls_length {V : Type} (K : Kernel V) (N : Nat) (LA LIW : Int) :
    ∀ (count off : Nat) (m : Ma27Memory V) (x : List V),
      (solveLoop K N LA LIW count off m x).calls.length = count := by
  intro count
  induction count with
  | zero => intro off m x; rfl
  | succ c ih =>
    intro off m x
    rw [solveLoop_succ]
    simp only [List.length_cons, ih]

theorem solveLoop_calls_isCd {V : Type} (K : Kernel V) (N : Nat) (LA LIW : Int) :
    ∀ (count off : Nat) (m : Ma27Memory V) (x : List V) (c : KCall V),
      c ∈ (solveLoop K N LA LIW count off m x).calls → c.isCd = true := by
  intro count
  induction count with
  | zero => intro off m x c hc; simp [solveLoop] at hc
  | succ n ih =>
    intro off m x c hc
    rw [solveLoop_succ] at hc
    simp only [List.mem_cons] at hc
    rcases hc with rfl | hc
    · rfl
    · exact ih _ _ _ c hc

theorem solveLoop_take {V : Type} (K : Kernel V) (N : Nat) (LA LIW : Int) :
    ∀ (count off : Nat) (m : Ma27Memory V) (x : List V),
      (solveLoop K N LA LIW count off m x).x.take off = x.take off := by
  intro count
  induction count with
  | zero => intro off m x; rfl
  | succ c ih =>
    intro off m x
    rw [solveLoop_succ]
    simp only
    rw [take_of_take_eq _ _ off (off + N) (by omega) (ih (off + N) _ _), take_putSegment]

theorem cdArgs_factor_storeCd {V : Type} (K : Kernel V) (hK : K.SolvesInPlace)
    (m : Ma27Memory V) (N LA LIW : Int) (seg seg1 : List V) :
    (cdArgs (storeCd m (K.ma27cd_ (cdArgs m N LA LIW seg))) N LA LIW seg1).factor =
      (cdArgs m N LA LIW seg1).factor := by
  obtain ⟨h1, h2, h3, h4, h5, h6⟩ := hK.keeps (cdArgs m N LA LIW seg)
  simp only [Ma27cdArgs.factor, cdArgs, storeCd] at h1 h2 h3 h4 h5 h6 ⊢
  rw [h1, h2, h3, h4, h5, h6]
  simp only [overwrite_self]

/-- The `j`-th pass of the loop of `solve`: the call it makes and the segment
of the buffer it leaves behind. -/
theorem solveLoop_call {V : Type} (K : Kernel V) (hK : K.SolvesInPlace) (N : Nat)
    (LA LIW : Int) (F : FactorData V) :
    ∀ (count off : Nat) (m : Ma27Memory V) (x : List V) (j : Nat), j < count →
      (cdArgs m (N : Int) LA LIW []).factor = F →
      ∃ a, (solveLoop K N LA LIW count off m x).calls[j]? =
          some (KCall.ma27cd a (K.ma27cd_ a)) ∧
        a.x = segment x (off + j * N) N ∧ a.factor = F ∧
        segment (solveLoop K N LA LIW count off m x).x (off + j * N) N =
          overwrite (segment x (off + j * N) N) (K.ma27cd_ a).x := by
  intro count
  induction count with
  | zero => intro off m x j hj; omega
  | succ c ih =>
    intro off m x j hj hF
    rw [solveLoop_succ]
    cases j with
    | zero =>
      refine ⟨cdArgs m (N : Int) LA LIW (segment x off N), by simp, by simp [cdArgs], hF, ?_⟩
      simp only [Nat.zero_mul, Nat.add_zero]
      rw [segment_congr_take _ _ off N (solveLoop_take K N LA LIW c (off + N) _ _),
        segment_putSegment]
    | succ j =>
      have hF1 : (cdArgs (storeCd m (K.ma27cd_ (cdArgs m (N : Int) LA LIW (segment x off N))))
          (N : Int) LA LIW []).factor = F := by
        rw [cdArgs_factor_storeCd K hK]; exact hF
      obtain ⟨a, h1, h2, h3, h4⟩ := ih (off + N) _
        (putSegment x off N (K.ma27cd_ (cdArgs m (N : Int) LA LIW (segment x off N))).x)
        j (by omega) hF1
      have hoff : off + (j + 1) * N = off + N + j * N := by
        rw [Nat.succ_mul]; omega
      have hseg : segment (putSegment x off N
            (K.ma27cd_ (cdArgs m (N : Int) LA LIW (segment x off N))).x) (off + N + j * N) N =
          segment x (off + N + j * N) N :=
        segment_congr_drop _ _ (off + N) _ N (by omega) (drop_putSegment _ _ _ _)
      refine ⟨a, ?_, ?_, h3, ?_⟩
      · simpa using h1
      · rw [h2, hoff, hseg]
      · rw [hoff]
        simp only
        rw [h4, hseg]

/-- Claim C7. With a kernel that behaves as `ma27cd_` is documented to,
`solve(x, nrhs)` makes exactly `nrhs` back-substitution calls; for every
`k < nrhs` the `k`-th call is made on the segment `x[k*n .. (k+1)*n)` of the
input with the factor data of the context, the same for every call; and
segment `k` of the result equals the result of a single-right-hand-side solve
(`nrhs = 1`) applied to segment `k` of the input alone. -/
theorem solve_segments {V : Type} (K : Kernel V) (hK : K.SolvesInPlace)
    (m : Ma27Memory V) (x : List V) (nrhs : Int) (tr : Bool) :
    (Ma27Interface.solve K m x nrhs tr).calls.length = nrhs.toNat ∧
    ∀ k : Nat, (k : Int) < nrhs →
      (∃ a, (Ma27Interface.solve K m x nrhs tr).calls[k]? =
          some (KCall.ma27cd a (K.ma27cd_ a)) ∧
        a.x = segment x (k * m.sparsity.ncol) m.sparsity.ncol ∧
        a.factor = factorOf m) ∧
      (∃ m1 x1 mk xk, (Ma27Interface.solve K m x nrhs tr).result = .ok (m1, x1) ∧
        (Ma27Interface.solve K m (segment x (k * m.sparsity.ncol) m.sparsity.ncol)
          1 tr).result = .ok (mk, xk) ∧
        segment x1 (k * m.sparsity.ncol) m.sparsity.ncol = xk) := by
  refine ⟨solveLoop_calls_length _ _ _ _ _ _ _ _, ?_⟩
  intro k hk
  have hk1 : k < nrhs.toNat := by omega
  obtain ⟨a, h1, h2, h3, h4⟩ := solveLoop_call K hK m.sparsity.ncol
    (sizeToInt m.nz.length) (sizeToInt m.iw.length) (factorOf m) nrhs.toNat 0 m x k hk1 rfl
  rw [Nat.zero_add] at h2 h4
  refine ⟨⟨a, h1, h2, h3⟩, _, _, _, _, rfl, rfl, ?_⟩
  rw [h4]
  have hlen := length_segment_le x (k * m.sparsity.ncol) m.sparsity.ncol
  have hone : (1 : Int).toNat = 1 := rfl
  rw [hone, solveLoop_succ]
  simp only [solveLoop]
  have hs0 : segment (segment x (k * m.sparsity.ncol) m.sparsity.ncol) 0 m.sparsity.ncol =
      segment x (k * m.sparsity.ncol) m.sparsity.ncol := by
    simp only [segment, List.drop_zero]
    rw [List.take_take, Nat.min_self]
  have hput : ∀ new : List V,
      putSegment (segment x (k * m.sparsity.ncol) m.sparsity.ncol) 0 m.sparsity.ncol new =
        overwrite (segment x (k * m.sparsity.ncol) m.sparsity.ncol) new := by
    intro new
    unfold putSegment
    rw [hs0, List.take_zero, List.nil_append, Nat.zero_add,
      List.drop_eq_nil_of_le hlen, List.append_nil]
  rw [hput, hs0]
  congr 1
  apply hK.scratch
  · rw [h3]; rfl
  · rw [h2]; rfl

theorem scripted_solvesInPlace (aflag R I bflag berr neig maxfrt : Int) :
    (scripted aflag R I bflag berr neig maxfrt).SolvesInPlace :=
  ⟨fun _ => ⟨rfl, rfl, rfl, rfl, rfl, rfl⟩,
    fun a b _ hx => by
      show a.x.map (fun v => 2 * v) = b.x.map (fun v => 2 * v)
      rw [hx]⟩

/-- Witness for claim C7: two right-hand sides on a factorized 2-by-2 context. -/
theorem solve_segments_witness :
    kernel3.SolvesInPlace ∧
    (Ma27Interface.solve kernel3 factored2 [1, 2, 3, 4] 2 false).calls.length = (2 : Int).toNat ∧
    ∀ k : Nat, (k : Int) < 2 →
      (∃ a, (Ma27Interface.solve kernel3 factored2 [1, 2, 3, 4] 2 false).calls[k]? =
          some (KCall.ma27cd a (kernel3.ma27cd_ a)) ∧
        a.x = segment [1, 2, 3, 4] (k * factored2.sparsity.ncol) factored2.sparsity.ncol ∧
        a.factor = factorOf factored2) ∧
      (∃ m1 x1 mk xk,
        (Ma27Interface.solve kernel3 factored2 [1, 2, 3, 4] 2 false).result = .ok (m1, x1) ∧
        (Ma27Interface.solve kernel3 factored2
          (segment [1, 2, 3, 4] (k * factored2.sparsity.ncol) factored2.sparsity.ncol)
          1 false).result = .ok (mk, xk) ∧
        segment x1 (k * factored2.sparsity.ncol) factored2.sparsity.ncol = xk) :=
  have hK : kernel3.SolvesInPlace := scripted_solvesInPlace _ _ _ _ _ _ _
  ⟨hK, solve_segments kernel3 hK factored2 [1, 2, 3, 4] 2 false⟩

/-- The sample context `mem1` is what `reset` makes of a fresh context. -/
theorem reset_fresh_sp1 : Ma27Interface.reset (fresh sp1) sp1 = .ok mem1 :=
  rfl

/-- The sample context `mem2` is what `reset` makes of a fresh context. -/
theorem reset_fresh_sp2 : Ma27Interface.reset (fresh sp2) sp2 = .ok mem2 :=
  rfl

/-- Counterexample to claim C5: on a freshly constructed and reset context
(rank, nsteps and maxfrt all -1, no factorization made) `solve` with one
right-hand side raises no error, calls the back-substitution kernel once and
overwrites the buffer `[7]` with `[14]`. -/
theorem solve_unfactorized_counterexample :
    Ma27Interface.reset (fresh sp1) sp1 = .ok mem1 ∧
    mem1.rank = -1 ∧ mem1.nsteps = -1 ∧ mem1.maxfrt = -1 ∧
    (Ma27Interface.solve kernel3 mem1 [7] 1 false).calls.length = 1 ∧
    ∃ m1, (Ma27Interface.solve kernel3 mem1 [7] 1 false).result = .ok (m1, [14]) :=
  ⟨rfl, rfl, rfl, rfl, rfl, _, rfl⟩

/-- Claim C5, amended. `solve` makes no check of the factorization state: on
every context it completes without an error and its kernel calls are exactly
`nrhs` calls of `ma27cd_` (none when `nrhs <= 0`). -/
theorem solve_never_checks {V : Type} (K : Kernel V) (m : Ma27Memory V) (x : List V)
    (nrhs : Int) (tr : Bool) :
    ∃ m1 x1, (Ma27Interface.solve K m x nrhs tr).result = .ok (m1, x1) ∧
      (Ma27Interface.solve K m x nrhs tr).calls.length = nrhs.toNat ∧
      ∀ c, c ∈ (Ma27Interface.solve K m x nrhs tr).calls → c.isCd = true :=
  ⟨_, _, rfl, solveLoop_calls_length _ _ _ _ _ _ _ _,
    solveLoop_calls_isCd _ _ _ _ _ _ _ _⟩

/-- What a completed last stage of `factorize` did. -/
theorem finish_ok {V : Type} [Zero V] (m m1 : Ma27Memory V) (info : Nat → Int)
    (h : finish m info = .ok m1) :
    ∃ r w, growTo m.w m.maxfrt = .ok w ∧ m1 = { m with rank := r, w := w } := by
  unfold finish at h
  dsimp only at h
  split at h
  · cases h
  · next mr hr =>
    have hmr : ∃ r, mr = { m with rank := r } := by
      split at hr
      · cases hr; exact ⟨_, rfl⟩
      · split at hr
        · cases hr; exact ⟨_, rfl⟩
        · split at hr
          · cases hr
          · cases hr; exact ⟨_, rfl⟩
    obtain ⟨r, rfl⟩ := hmr
    split at h
    · cases h
    · next w hw =>
      cases h
      exact ⟨r, w, hw, rfl⟩

/-- A completed `factorize` keeps the pattern and the sizes of the packed
index buffers, and leaves none of `nz`, `iw`, `w` smaller. -/
theorem factorize_ok_frame {V : Type} [Zero V] [DecidableEq V] (K : Kernel V)
    (m : Ma27Memory V) (A : Option (List V)) (m1 : Ma27Memory V)
    (h : (Ma27Interface.factorize K m A).result = .ok m1) :
    m1.sparsity = m.sparsity ∧ m1.irn.length = m.irn.length ∧
      m1.jcn.length = m.jcn.length ∧ m.nz.length ≤ m1.nz.length ∧
      m.iw.length ≤ m1.iw.length ∧ m.w.length ≤ m1.w.length := by
  cases A with
  | none => simp [Ma27Interface.factorize] at h
  | some a =>
    cases hx : extract m a with
    | error e => simp [Ma27Interface.factorize, hx] at h
    | ok p =>
      obtain ⟨s1, s2, s3⟩ := extract_sizes m a p hx
      rcases factorize_some K m a p hx with ⟨_, hr⟩ | ⟨_, e, _, hr⟩ | ⟨_, m3, hg, hr⟩
      · rw [hr] at h; cases h
      · rw [hr] at h; cases h
      · rw [hr] at h
        obtain ⟨nz, iw, hnz, hiw, rfl, _⟩ := growStep_ok _ _ _ hg
        obtain ⟨r, w, hw, rfl⟩ := finish_ok _ _ _ h
        have l1 := (growTo_ok _ _ _ hnz).2
        have l2 := (growTo_ok _ _ _ hiw).2
        have l3 := (growTo_ok _ _ _ hw).2
        have e1 : (analysed K m p).nz.length = m.nz.length := s3
        have e2 : (analysed K m p).iw.length = m.iw.length := length_overwrite _ _
        refine ⟨rfl, ?_, ?_, ?_, ?_, ?_⟩
        · show (overwrite (overwrite p.irn _) _).length = _
          rw [length_overwrite, length_overwrite, s1]
        · show (overwrite (overwrite p.jcn _) _).length = _
          rw [length_overwrite, length_overwrite, s2]
        · show _ ≤ (overwrite nz _).length
          rw [length_overwrite, l1, e1]; exact Nat.le_max_left _ _
        · show _ ≤ (overwrite iw _).length
          rw [length_overwrite, l2, e2]; exact Nat.le_max_left _ _
        · rw [l3]; exact Nat.le_max_left _ _

/-- Values that fit a context still fit it after a completed `factorize`. -/
theorem Fits.after_factorize {V : Type} [Zero V] [DecidableEq V] (K : Kernel V)
    (m : Ma27Memory V) (A : Option (List V)) (m1 : Ma27Memory V) (a2 : List V)
    (h : (Ma27Interface.factorize K m A).result = .ok m1) (hfit : Fits m a2) :
    Fits m1 a2 := by
  obtain ⟨hs, h1, h2, h3, _, _⟩ := factorize_ok_frame K m A m1 h
  have f1 := hfit.irn_length
  have f2 := hfit.jcn_length
  have f3 := hfit.nz_length
  refine ⟨?_, ?_, ?_, ?_, ?_, ?_, ?_⟩
  · rw [hs]; exact hfit.colind_length
  · rw [hs]; exact hfit.colind_mono
  · rw [hs]; exact hfit.row_length
  · rw [hs]; exact hfit.values_length
  · rw [hs]; omega
  · rw [hs]; omega
  · rw [hs]; omega

/-- Counterexample to claim C6: after a completed `factorize` a second call
with new values for the same pattern calls `ma27ad_` again. -/
theorem refactorize_analysis_counterexample :
    (Ma27Interface.factorize kernelOk mem2 (some [2, 7, 5])).result = .ok factoredOk ∧
    factoredOk.rank = 2 ∧
    ∃ c, c ∈ (Ma27Interface.factorize kernelOk factoredOk (some [4, 0, 6])).calls ∧
      c.isAd = true :=
  ⟨rfl, rfl, _, List.Mem.head _, rfl⟩

/-- Claim C6, amended. After a completed `factorize`, a second call with new
values for the same pattern and no reset in between calls the analysis kernel
`ma27ad_` again, first and exactly once: its kernel calls are that call alone
or that call followed by one call of `ma27bd_`, and they are both whenever
the second call completes. -/
theorem refactorize_calls {V : Type} [Zero V] [DecidableEq V] (K : Kernel V)
    (m : Ma27Memory V) (A1 : Option (List V)) (m1 : Ma27Memory V) (a2 : List V)
    (h1 : (Ma27Interface.factorize K m A1).result = .ok m1) (hfit : Fits m a2) :
    ∃ aa ar,
      ((Ma27Interface.factorize K m1 (some a2)).calls = [KCall.ma27ad aa ar] ∨
        ∃ ba br, (Ma27Interface.factorize K m1 (some a2)).calls =
          [KCall.ma27ad aa ar, KCall.ma27bd ba br]) ∧
      ∀ m2, (Ma27Interface.factorize K m1 (some a2)).result = .ok m2 →
        ∃ ba br, (Ma27Interface.factorize K m1 (some a2)).calls =
          [KCall.ma27ad aa ar, KCall.ma27bd ba br] := by
  obtain ⟨p, hx, _⟩ := extract_spec m1 a2 (hfit.after_factorize K m A1 m1 a2 h1)
  refine ⟨adCallArgs m1 p, K.ma27ad_ (adCallArgs m1 p), ?_, ?_⟩
  · rcases factorize_some K m1 a2 p hx with ⟨_, h⟩ | ⟨_, e, _, h⟩ | ⟨_, m3, _, h⟩
    · rw [h]; exact Or.inl rfl
    · rw [h]; exact Or.inl rfl
    · rw [h]; exact Or.inr ⟨_, _, rfl⟩
  · intro m2 hm2
    rcases factorize_some K m1 a2 p hx with ⟨_, h⟩ | ⟨_, e, _, h⟩ | ⟨_, m3, _, h⟩
    · rw [h] at hm2; cases hm2
    · rw [h] at hm2; cases hm2
    · rw [h]; exact ⟨_, _, rfl⟩

/-- Witness for the amended claim C6. -/
theorem refactorize_calls_witness :
    (Ma27Interface.factorize kernelOk mem2 (some [2, 7, 5])).result = .ok factoredOk ∧
    Fits mem2 [4, 0, 6] ∧
    ∃ aa ar,
      ((Ma27Interface.factorize kernelOk factoredOk (some [4, 0, 6])).calls =
          [KCall.ma27ad aa ar] ∨
        ∃ ba br, (Ma27Interface.factorize kernelOk factoredOk (some [4, 0, 6])).calls =
          [KCall.ma27ad aa ar, KCall.ma27bd ba br]) ∧
      ∀ m2, (Ma27Interface.factorize kernelOk factoredOk (some [4, 0, 6])).result = .ok m2 →
        ∃ ba br, (Ma27Interface.factorize kernelOk factoredOk (some [4, 0, 6])).calls =
          [KCall.ma27ad aa ar, KCall.ma27bd ba br] :=
  have h1 : (Ma27Interface.factorize kernelOk mem2 (some [2, 7, 5])).result = .ok factoredOk :=
    rfl
  have hfit : Fits mem2 [4, 0, 6] := fits_mem2 [4, 0, 6] (by decide)
  ⟨h1, hfit, refactorize_calls kernelOk mem2 (some [2, 7, 5]) factoredOk [4, 0, 6] h1 hfit⟩

/-- Claim C9 at a failing input: the analysis is clean and reports the
required real-array size `R = info[4] = 30` and `I = info[5] = 1`; the numeric
kernel is then called with a real workspace `nz` of 20 entries, fewer than `R`
(the integer workspace, 26 entries, is at least `I`). -/
theorem factorize_real_workspace_below_required :
    ∃ aa ar ba br,
      (Ma27Interface.factorize kernelR30 mem2 (some [2, 7, 5])).calls =
        [KCall.ma27ad aa ar, KCall.ma27bd ba br] ∧
      ar.info 0 = 0 ∧ ar.info 4 = 30 ∧ ar.info 5 = 1 ∧
      ba.nz.length = 20 ∧ ba.LA = 20 ∧ ba.iw.length = 26 ∧
      ¬ (ar.info 4 ≤ (ba.nz.length : Int)) :=
  ⟨_, _, _, _, rfl, rfl, rfl, rfl, rfl, rfl, rfl, by decide⟩

theorem readAt_ok {α : Type} (xs : List α) (i : Nat) (v d : α)
    (h : readAt xs i = .ok v) : xs.getD i d = v := by
  unfold readAt at h
  split at h
  · next w hw =>
    cases h
    simp [hw]
  · cases h

/-- What a completed `reset` did to the workspaces. -/
theorem reset_ok {V : Type} [Zero V] (m m1 : Ma27Memory V) (sp : Sparsity)
    (h : Ma27Interface.reset m sp = .ok m1) :
    m1.w = m.w ∧ m1.iw.length = iwAfterReset sp ∧ m1.nz.length = nzAfterReset sp := by
  unfold Ma27Interface.reset LinsolInternal.reset at h
  dsimp only at h
  cases hr : readAt sp.colind sp.ncol with
  | error e => rw [hr] at h; cases h
  | ok nnz =>
    rw [hr] at h
    dsimp only at h
    have hn : sp.nnz = nnz := readAt_ok _ _ _ 0 hr
    split at h
    · cases h
      refine ⟨rfl, ?_, ?_⟩
      · show (resize _ _).length = _
        rw [length_resize, iwAfterReset, hn]
      · show (resize _ _).length = _
        rw [length_resize, nzAfterReset, hn]
    · cases h

theorem step_sizes {V : Type} [Zero V] [DecidableEq V] (K : Kernel V)
    (m m1 : Ma27Memory V) (op : Op V) (h : op.step K m = .ok m1) :
    op.SizesAfter m m1 := by
  cases op with
  | reset sp =>
    obtain ⟨h1, h2, h3⟩ := reset_ok m m1 sp h
    exact ⟨by rw [h1], h1, h2, h3⟩
  | factorize A =>
    obtain ⟨_, _, _, h1, h2, h3⟩ := factorize_ok_frame K m A m1 h
    exact ⟨h3, h2, h1⟩

/-- Counterexample to claim C10: in the sequence reset, factorize, reset on
one pattern the second `reset` shrinks `iw` from 15 to 12 entries and `nz`
from 60 to 2. -/
theorem reset_shrinks_counterexample :
    ∃ m1 m2 m3, runOps kernelI3 (fresh sp1) sampleOps = .ok [m1, m2, m3] ∧
      m2.iw.length = 15 ∧ m3.iw.length = 12 ∧ m2.nz.length = 60 ∧ m3.nz.length = 2 ∧
      ¬ (m2.iw.length ≤ m3.iw.length) ∧ ¬ (m2.nz.length ≤ m3.nz.length) :=
  ⟨_, _, _, rfl, rfl, rfl, rfl, rfl, by decide, by decide⟩

/-- Claim C10, amended. In every sequence of `reset` and `factorize` calls
on one context that all complete: `w` is never smaller after a call than
before it, and `reset` leaves it as it was; no `factorize` leaves `iw` or `nz`
smaller than before the call; each `reset` leaves `iw` with 2(2 nnz + 3 n + 1)
entries and `nz` with 2 nnz entries for its pattern, sizes that do not
decrease from a pattern to one at least as large. -/
theorem ops_workspace_sizes {V : Type} [Zero V] [DecidableEq V] (K : Kernel V)
    (m0 : Ma27Memory V) (ops : List (Op V)) (ms : List (Ma27Memory V))
    (h : runOps K m0 ops = .ok ms) :
    ms.length = ops.length ∧
    (∀ t, t ∈ steps m0 ops ms → t.2.1.SizesAfter t.1 t.2.2) ∧
    (∀ sp sp1 : Sparsity, sp.ncol ≤ sp1.ncol → sp.nnz ≤ sp1.nnz →
      iwAfterReset sp ≤ iwAfterReset sp1 ∧ nzAfterReset sp ≤ nzAfterReset sp1) := by
  refine ⟨?_, ?_, ?_⟩
  · induction ops generalizing m0 ms with
    | nil => cases h; rfl
    | cons op ops ih =>
      unfold runOps at h
      cases h1 : op.step K m0 with
      | error e => rw [h1] at h; cases h
      | ok m1 =>
        rw [h1] at h
        dsimp only at h
        cases h2 : runOps K m1 ops with
        | error e => rw [h2] at h; cases h
        | ok ms1 =>
          rw [h2] at h
          cases h
          simp only [List.length_cons, ih m1 ms1 h2]
  · induction ops generalizing m0 ms with
    | nil => cases h; intro t ht; simp [steps] at ht
    | cons op ops ih =>
      unfold runOps at h
      cases h1 : op.step K m0 with
      | error e => rw [h1] at h; cases h
      | ok m1 =>
        rw [h1] at h
        dsimp only at h
        cases h2 : runOps K m1 ops with
        | error e => rw [h2] at h; cases h
        | ok ms1 =>
          rw [h2] at h
          cases h
          intro t ht
          simp only [steps, List.zip_cons_cons, List.mem_cons] at ht
          rcases ht with rfl | ht
          · exact step_sizes K m0 m1 op h1
          · exact ih m1 ms1 h2 t ht
  · intro sp sp1 hn hnnz
    unfold iwAfterReset nzAfterReset
    constructor <;> omega

/-- Witness for the amended claim C10: reset, factorize, reset. -/
theorem ops_workspace_sizes_witness :
    runOps kernelI3 (fresh sp1) sampleOps = .ok sampleRun ∧
    (sampleRun.length = sampleOps.length ∧
    (∀ t, t ∈ steps (fresh sp1) sampleOps sampleRun → t.2.1.SizesAfter t.1 t.2.2) ∧
    (∀ sp sp1 : Sparsity, sp.ncol ≤ sp1.ncol → sp.nnz ≤ sp1.nnz →
      iwAfterReset sp ≤ iwAfterReset sp1 ∧ nzAfterReset sp ≤ nzAfterReset sp1)) :=
  have h : runOps kernelI3 (fresh sp1) sampleOps = .ok sampleRun := rfl
  ⟨h, ops_workspace_sizes kernelI3 (fresh sp1) sampleOps sampleRun h⟩

end casadi
